import Mathlib

/-!
Verification of the `lan13005/productivity` repository against its
natural-language specification.

Two developments live here.

1. The run-history query and comparison engine described by the spec
   (tabular history model, query pipeline, comparison engine, config
   flattening).  The corresponding source file is not part of the
   checked-in sources, so every definition in that part is modelled
   from the spec's words; each such definition says so in its doc
   comment.

2. The `.claude` directory-mirroring utility `src/sync_claude.py`,
   embedded directly from the Python source.

All definitions are executable so that concrete witnesses evaluate.
Numeric cell values are modelled as `Option Rat`; `none` is the missing
value / NaN marker.
-/

namespace Productivity

/-! ### Tabular history model

Modelled from the spec: "an ordered sequence of step keys plus a mapping
from column name to a fixed-length array of optional numeric values
aligned to that key sequence" (§9); the index is named `step` (§3).
-/

/-- Modelled from the spec: a step-indexed table; `steps` is the ordered
row index, `cols` maps each column name to its values aligned with
`steps`; `none` cells are missing values (NaN). -/
structure Table where
  steps : List Int
  cols : List (String × List (Option Rat))
deriving Repr, DecidableEq

/-- A table is empty when it has zero rows or zero columns (§3 invariant c). -/
def Table.isEmptyTab (t : Table) : Bool :=
  t.steps.isEmpty || t.cols.isEmpty

/-- Well-formedness: every column has exactly one value per step. -/
def Table.WF (t : Table) : Prop :=
  ∀ c ∈ t.cols, c.2.length = t.steps.length

instance (t : Table) : Decidable t.WF := by
  unfold Table.WF; infer_instance

/-- Names of the table's columns, in order. -/
def Table.colNames (t : Table) : List String := t.cols.map (·.1)

/-- The value series of a named column, if present (first match). -/
def Table.getCol (t : Table) (name : String) : Option (List (Option Rat)) :=
  (t.cols.find? (fun c => c.1 = name)).map (·.2)

/-! ### Row masks

Row-dropping stages are expressed through Boolean keep-masks aligned
with the step index. -/

/-- Keep the elements of `l` whose mask entry is `true`. -/
def filterMask {α : Type} : List Bool → List α → List α
  | true :: bs, a :: as => a :: filterMask bs as
  | false :: bs, _ :: as => filterMask bs as
  | _, _ => []

/-- Apply a keep-mask to every row of the table. -/
def Table.applyMask (t : Table) (m : List Bool) : Table :=
  ⟨filterMask m t.steps, t.cols.map (fun c => (c.1, filterMask m c.2))⟩

/-! ### Error taxonomy (spec §7) -/

/-- Modelled from the spec: the fatal error kinds of the query pipeline. -/
inductive QueryError where
  | invalidExpr (text : String)
  | unknownColumn (name : String)
  | invalidFormula (text : String)
deriving Repr, DecidableEq

/-! ### Row filter ("where") — spec §4.2 item 1

Modelled from the spec: grammar `<column><op><numeric literal>` with
optional whitespace, the operators being greater, less, greater-equal,
less-equal, equal and not-equal; column names restricted to letters,
digits, underscore, dot, slash and dash; the literal `step` refers to
the row index;
comparison against a missing value excludes the row. -/

/-- The comparison operators of the row-filter grammar. -/
inductive CmpOp where
  | gt | lt | ge | le | eq | ne
deriving Repr, DecidableEq

/-- Evaluate a comparison operator on rationals. -/
def CmpOp.eval : CmpOp → Rat → Rat → Bool
  | .gt, a, b => b < a
  | .lt, a, b => a < b
  | .ge, a, b => b ≤ a
  | .le, a, b => a ≤ b
  | .eq, a, b => a = b
  | .ne, a, b => a ≠ b

/-- The operator spellings tried in order (two-character ones first). -/
def opTable : List (String × CmpOp) :=
  [(">=", .ge), ("<=", .le), ("==", .eq), ("!=", .ne), (">", .gt), ("<", .lt)]

/-- Characters permitted in a column name: letters, digits, underscore,
dot, slash, dash. -/
def isColChar (c : Char) : Bool :=
  c.isAlpha || c.isDigit || c = '_' || c = '.' || c = '/' || c = '-'

/-- Split a character list at every separator occurrence (Python
`str.split(sep)` for a one-character separator). -/
def splitOnCharAux (sep : Char) : List Char → List Char → List (List Char)
  | [], acc => [acc.reverse]
  | c :: rest, acc =>
    if c = sep then acc.reverse :: splitOnCharAux sep rest []
    else splitOnCharAux sep rest (c :: acc)

/-- Split a string at every occurrence of a one-character separator. -/
def splitOnChar (sep : Char) (s : String) : List String :=
  (splitOnCharAux sep s.data []).map String.mk

/-- Split at the first occurrence of a (non-empty) separator substring:
the parts before and after it, or `none` when it does not occur. -/
def splitFirst (sep : List Char) : List Char → Option (List Char × List Char)
  | [] => none
  | c :: rest =>
    if sep.isPrefixOf (c :: rest) ∧ ¬ sep.isEmpty then
      some ([], (c :: rest).drop sep.length)
    else (splitFirst sep rest).map (fun p => (c :: p.1, p.2))

/-- Strip leading and trailing spaces. -/
def trimChars (cs : List Char) : List Char :=
  (((cs.dropWhile (fun c => c = ' ')).reverse).dropWhile (fun c => c = ' ')).reverse

/-- Strip leading and trailing spaces from a string. -/
def strTrim (s : String) : String := String.mk (trimChars s.data)

/-- Lower-case every character of a string. -/
def toLowerStr (s : String) : String := String.mk (s.data.map Char.toLower)

/-- Parse a run of decimal digits into a number and its length. -/
def parseDigits : List Char → Option (Nat × Nat)
  | [] => none
  | cs =>
    let ds := cs.takeWhile Char.isDigit
    if ds.isEmpty ∨ ¬ (cs.dropWhile Char.isDigit).isEmpty then none
    else some (ds.foldl (fun n c => 10 * n + (c.toNat - 48)) 0, ds.length)

/-- Parse a numeric literal: optional sign, digits, optional fractional part. -/
def parseLit (s : String) : Option Rat :=
  let cs := trimChars s.data
  let (neg, body) :=
    match cs with
    | '-' :: rest => (true, rest)
    | _ => (false, cs)
  let mag : Option Rat :=
    match splitOnCharAux '.' body [] with
    | [intPart] => (parseDigits intPart).map (fun p => (p.1 : Rat))
    | [intPart, fracPart] =>
      match parseDigits intPart, parseDigits fracPart with
      | some i, some f => some ((i.1 : Rat) + (f.1 : Rat) / ((10 : Rat) ^ f.2))
      | _, _ => none
    | _ => none
  mag.map (fun q => if neg then -q else q)

/-- Split a filter expression at the first operator of `opTable` that
divides it into exactly two parts. -/
def splitOnOp (expr : String) : Option (String × CmpOp × String) :=
  opTable.foldl
    (fun acc (op : String × CmpOp) =>
      match acc with
      | some r => some r
      | none =>
        match splitFirst op.1.data expr.data with
        | some (l, r) => some (strTrim (String.mk l), op.2, strTrim (String.mk r))
        | none => none)
    none

/-- Parse a full row-filter expression into column, operator, literal. -/
def parseFilter (expr : String) : Option (String × CmpOp × Rat) :=
  match splitOnOp expr with
  | none => none
  | some (col, op, litTxt) =>
    if col.data.all isColChar ∧ ¬ col.data.isEmpty then
      (parseLit litTxt).map (fun q => (col, op, q))
    else none

/-- Row keep-mask of a filter: a missing cell excludes the row. -/
def cellPred (op : CmpOp) (lit : Rat) : Option Rat → Bool
  | none => false
  | some v => op.eval v lit

/-- Modelled from the spec: the row-filter stage.  No-op on an empty
table; `InvalidExpression` on an unparsable expression; `UnknownColumn`
when the column is neither `step` nor present; otherwise keeps exactly
the rows satisfying the comparison. -/
def rowFilter (t : Table) (expr : String) : Except QueryError Table :=
  if t.isEmptyTab then .ok t
  else
    match parseFilter expr with
    | none => .error (.invalidExpr expr)
    | some (col, op, lit) =>
      if col = "step" then
        .ok (t.applyMask (t.steps.map (fun s : Int => op.eval (s : Rat) lit)))
      else
        match t.getCol col with
        | none => .error (.unknownColumn col)
        | some vals => .ok (t.applyMask (vals.map (cellPred op lit)))

/-! ### Column filter ("select") — spec §4.2 item 2 -/

/-- Modelled from the spec: the column-select stage.  The pattern is a
`|`-separated set of exact column names; only exact matches are kept;
requested-but-missing names are reported as a (non-fatal) warning list;
when nothing matches the result is an empty table, not an error. -/
def selectStage (t : Table) (pattern : String) : Table × List String :=
  if t.isEmptyTab then (t, [])
  else
    let names := splitOnChar '|' pattern
    let kept := t.cols.filter (fun c => names.contains c.1)
    let missing := names.filter (fun n => ¬ t.colNames.contains n)
    (⟨t.steps, kept⟩, missing)

/-! ### NaN-row suppression — spec §4.2 item 4 -/

/-- Mask of rows to keep under "hide rows with any missing value". -/
def keepMaskAny (t : Table) : List Bool :=
  t.cols.foldl (fun acc c => List.zipWith and acc (c.2.map Option.isSome))
    (List.replicate t.steps.length true)

/-- Mask of rows to keep under "hide rows whose values are all missing". -/
def keepMaskAll (t : Table) : List Bool :=
  (t.cols.foldl (fun acc c => List.zipWith and acc (c.2.map Option.isNone))
    (List.replicate t.steps.length true)).map not

/-- Modelled from the spec: NaN-row suppression; drops rows where any
(`hideAny = true`) or all values are missing; no-op on an empty table. -/
def dropNaN (t : Table) (hideAny : Bool) : Table :=
  if t.isEmptyTab then t
  else t.applyMask (if hideAny then keepMaskAny t else keepMaskAll t)

/-! ### Column-name quoting for the eval stage — spec §4.2 item 3

Modelled from the spec: column names that are not valid identifiers are
rewritten into a quoted form before evaluation, using longest-name-first
substitution and a boundary check so that a shorter name is not matched
inside a longer one and no occurrence is quoted twice.  The quote marker
is the backtick character. -/

/-- The backtick quote marker (character code 96). -/
def btChar : Char := Char.ofNat 96

/-- Identifier-word characters for the boundary check. -/
def isWordChar (c : Char) : Bool := c.isAlpha || c.isDigit || c = '_'

/-- A match may not be preceded by a word character or a quote marker. -/
def boundaryL : Option Char → Bool
  | none => true
  | some c => !(isWordChar c || c = btChar)

/-- A match may not be followed by a word character or a quote marker. -/
def boundaryR : List Char → Bool
  | [] => true
  | c :: _ => !(isWordChar c || c = btChar)

/-- One left-to-right substitution pass: wrap every boundary-respecting
occurrence of `name` in quote markers.  `prev` is the character just
before the current position; the fuel is at least the text length. -/
def quoteScan (name : List Char) : Nat → Option Char → List Char → List Char
  | 0, _, s => s
  | _ + 1, _, [] => []
  | fuel + 1, prev, c :: rest =>
    if !name.isEmpty && name.isPrefixOf (c :: rest) && boundaryL prev
        && boundaryR ((c :: rest).drop name.length) then
      btChar :: (name ++ btChar :: quoteScan name fuel (some btChar)
        ((c :: rest).drop name.length))
    else
      c :: quoteScan name fuel (some c) rest

/-- Quote every boundary-respecting occurrence of `name` in `text`. -/
def quoteOne (name : String) (text : String) : String :=
  String.mk (quoteScan name.data text.data.length none text.data)

/-- Insert into a list kept sorted by decreasing length (stable). -/
def insertByLen (x : String) : List String → List String
  | [] => [x]
  | y :: ys => if y.length < x.length then x :: y :: ys else y :: insertByLen x ys

/-- Stable sort by decreasing name length. -/
def sortByLenDesc (l : List String) : List String := l.foldr insertByLen []

/-- Modelled from the spec: rewrite a formula, quoting each column name,
longest names first. -/
def quoteColumns (cols : List String) (formula : String) : String :=
  (sortByLenDesc cols).foldl (fun f n => quoteOne n f) formula

/-- Predicate on character lists: no two adjacent quote markers.  Quoting an
occurrence a second time would wrap an already-quoted region in a second
pair of markers and hence produce two adjacent markers, so this predicate
expresses that no occurrence is ever quoted twice. -/
def noAdjBt : List Char → Bool
  | c1 :: c2 :: rest => !(c1 = btChar && c2 = btChar) && noAdjBt (c2 :: rest)
  | _ => true

/-! ### Formula tokenizer, parser and evaluator — spec §9

Modelled from the spec: "a small recursive-descent expression parser
over a restricted grammar (identifiers, numeric literals, plus, minus,
times, divide, parentheses)".  Identifiers are either plain words or
quote-marker-delimited column names. -/

/-- Formula tokens. -/
inductive Tok where
  | num (q : Rat)
  | ident (s : String)
  | plus | minus | star | slash | lparen | rparen
deriving Repr, DecidableEq

/-- Value of a digit run. -/
def digitsVal (ds : List Char) : Nat :=
  ds.foldl (fun n c => 10 * n + (c.toNat - 48)) 0

/-- Tokenize a formula; fuel is at least the text length. -/
def tokenize : Nat → List Char → Option (List Tok)
  | 0, [] => some []
  | 0, _ :: _ => none
  | _ + 1, [] => some []
  | fuel + 1, c :: rest =>
    if c = ' ' then tokenize fuel rest
    else if c = '+' then (tokenize fuel rest).map (Tok.plus :: ·)
    else if c = '-' then (tokenize fuel rest).map (Tok.minus :: ·)
    else if c = '*' then (tokenize fuel rest).map (Tok.star :: ·)
    else if c = '/' then (tokenize fuel rest).map (Tok.slash :: ·)
    else if c = '(' then (tokenize fuel rest).map (Tok.lparen :: ·)
    else if c = ')' then (tokenize fuel rest).map (Tok.rparen :: ·)
    else if c.isDigit then
      let ds := (c :: rest).takeWhile Char.isDigit
      let rest2 := (c :: rest).dropWhile Char.isDigit
      match rest2 with
      | '.' :: r3 =>
        let fs := r3.takeWhile Char.isDigit
        if fs.isEmpty then none
        else
          (tokenize fuel (r3.dropWhile Char.isDigit)).map
            (Tok.num ((digitsVal ds : Rat)
              + (digitsVal fs : Rat) / ((10 : Rat) ^ fs.length)) :: ·)
      | _ => (tokenize fuel rest2).map (Tok.num (digitsVal ds : Rat) :: ·)
    else if c = btChar then
      let nm := rest.takeWhile (fun d => d ≠ btChar)
      match rest.dropWhile (fun d => d ≠ btChar) with
      | _ :: r2 => (tokenize fuel r2).map (Tok.ident (String.mk nm) :: ·)
      | [] => none
    else if c.isAlpha || c = '_' then
      let nm := (c :: rest).takeWhile isWordChar
      (tokenize fuel ((c :: rest).dropWhile isWordChar)).map
        (Tok.ident (String.mk nm) :: ·)
    else none

/-- Abstract syntax of formulas. -/
inductive FExpr where
  | lit (q : Rat)
  | fvar (s : String)
  | add (a b : FExpr)
  | sub (a b : FExpr)
  | mul (a b : FExpr)
  | div (a b : FExpr)
  | neg (a : FExpr)
deriving Repr, DecidableEq

/-- Parser modes: sum level, product level, atom level, and the two
left-associative continuation loops. -/
inductive PMode where
  | psum | pprod | patom
  | psumLoop (acc : FExpr)
  | pprodLoop (acc : FExpr)

/-- Recursive-descent parser (single fuel-indexed function covering the
mutually recursive grammar levels). -/
def parseF : Nat → PMode → List Tok → Option (FExpr × List Tok)
  | 0, _, _ => none
  | fuel + 1, mode, toks =>
    match mode with
    | .patom =>
      match toks with
      | .num q :: rest => some (.lit q, rest)
      | .ident s :: rest => some (.fvar s, rest)
      | .minus :: rest => (parseF fuel .patom rest).map (fun p => (.neg p.1, p.2))
      | .lparen :: rest =>
        match parseF fuel .psum rest with
        | some (e, .rparen :: r2) => some (e, r2)
        | _ => none
      | _ => none
    | .pprod =>
      match parseF fuel .patom toks with
      | some (e, rest) => parseF fuel (.pprodLoop e) rest
      | none => none
    | .pprodLoop acc =>
      match toks with
      | .star :: rest =>
        match parseF fuel .patom rest with
        | some (e, r2) => parseF fuel (.pprodLoop (.mul acc e)) r2
        | none => none
      | .slash :: rest =>
        match parseF fuel .patom rest with
        | some (e, r2) => parseF fuel (.pprodLoop (.div acc e)) r2
        | none => none
      | _ => some (acc, toks)
    | .psum =>
      match parseF fuel .pprod toks with
      | some (e, rest) => parseF fuel (.psumLoop e) rest
      | none => none
    | .psumLoop acc =>
      match toks with
      | .plus :: rest =>
        match parseF fuel .pprod rest with
        | some (e, r2) => parseF fuel (.psumLoop (.add acc e)) r2
        | none => none
      | .minus :: rest =>
        match parseF fuel .pprod rest with
        | some (e, r2) => parseF fuel (.psumLoop (.sub acc e)) r2
        | none => none
      | _ => some (acc, toks)

/-- Parse a whole formula string into an AST. -/
def parseFormula (s : String) : Option FExpr :=
  match tokenize s.data.length s.data with
  | none => none
  | some toks =>
    match parseF (4 * toks.length + 4) .psum toks with
    | some (e, []) => some e
    | _ => none

/-- Pointwise lift of a binary operation; a missing operand yields a
missing result. -/
def liftCell (f : Rat → Rat → Rat) : Option Rat → Option Rat → Option Rat
  | some a, some b => some (f a b)
  | _, _ => none

/-- Pointwise division; division by zero yields a missing value. -/
def divCell : Option Rat → Option Rat → Option Rat
  | some a, some b => if b = 0 then none else some (a / b)
  | _, _ => none

/-- Evaluate a formula column-wise against the table. -/
def evalCols (t : Table) : FExpr → Option (List (Option Rat))
  | .lit q => some (List.replicate t.steps.length (some q))
  | .fvar s => t.getCol s
  | .add a b =>
    match evalCols t a, evalCols t b with
    | some x, some y => some (List.zipWith (liftCell (· + ·)) x y)
    | _, _ => none
  | .sub a b =>
    match evalCols t a, evalCols t b with
    | some x, some y => some (List.zipWith (liftCell (· - ·)) x y)
    | _, _ => none
  | .mul a b =>
    match evalCols t a, evalCols t b with
    | some x, some y => some (List.zipWith (liftCell (· * ·)) x y)
    | _, _ => none
  | .div a b =>
    match evalCols t a, evalCols t b with
    | some x, some y => some (List.zipWith divCell x y)
    | _, _ => none
  | .neg a => (evalCols t a).map (List.map (Option.map (fun q => -q)))

/-- Write a column, overwriting an existing one of the same name or
appending a new one. -/
def Table.setCol (t : Table) (name : String) (vals : List (Option Rat)) : Table :=
  if t.colNames.contains name then
    ⟨t.steps, t.cols.map (fun c => if c.1 = name then (c.1, vals) else c)⟩
  else ⟨t.steps, t.cols ++ [(name, vals)]⟩

/-- Modelled from the spec: the derived-column ("eval") stage.  The
expression is `name=formula`; the name must be non-empty after trimming;
the formula is evaluated after column-name quoting; failure is the fatal
`InvalidFormula` carrying the original expression text; no-op on an
empty table. -/
def evalStage (t : Table) (expr : String) : Except QueryError Table :=
  if t.isEmptyTab then .ok t
  else
    match splitFirst ['='] expr.data with
    | none => .error (.invalidFormula expr)
    | some (name, formulaChars) =>
      let nm := strTrim (String.mk name)
      if nm = "" then .error (.invalidFormula expr)
      else
        let formula := String.mk formulaChars
        match parseFormula (quoteColumns t.colNames formula) with
        | none => .error (.invalidFormula expr)
        | some ast =>
          match evalCols t ast with
          | none => .error (.invalidFormula expr)
          | some vals => .ok (t.setCol nm vals)

/-! ### Comparison engine: history outer join — spec §4.3

Modelled from the spec: every run's columns are suffixed with a
run-index tag, the runs' tables are combined by full outer join on the
`step` index sorted ascending; show-all keeps every row, otherwise rows
with any missing cell are dropped. -/

/-- Insert a step into an ascending duplicate-free list. -/
def insertStep (s : Int) : List Int → List Int
  | [] => [s]
  | x :: xs => if s < x then s :: x :: xs else if s = x then x :: xs else x :: insertStep s xs

/-- Ascending duplicate-free union of all step indices. -/
def stepUnion (ts : List Table) : List Int :=
  ((ts.map (·.steps)).flatten).foldl (fun acc s => insertStep s acc) []

/-- The cell of a column at a given step, if the step is present and the
cell is not missing. -/
def lookupStep (tSteps : List Int) (vals : List (Option Rat)) (s : Int) : Option Rat :=
  ((tSteps.zip vals).find? (fun p => p.1 = s)).bind (·.2)

/-- Reindex a table onto a new step list; absent steps become missing cells. -/
def alignTo (steps : List Int) (t : Table) : Table :=
  ⟨steps, t.cols.map (fun c => (c.1, steps.map (fun s => lookupStep t.steps c.2 s)))⟩

/-- Suffix every column name with the run-index tag `(runI)`. -/
def tagCols (i : Nat) (t : Table) : Table :=
  ⟨t.steps, t.cols.map (fun c => (c.1 ++ " (run" ++ toString i ++ ")", c.2))⟩

/-- Drop every row containing a missing cell. -/
def dropAnyMissing (t : Table) : Table := t.applyMask (keepMaskAny t)

/-- Modelled from the spec: the history-comparison join of N runs. -/
def historyJoin (ts : List Table) (showAll : Bool) : Table :=
  let steps := stepUnion ts
  let joined : Table :=
    ⟨steps, (ts.enum.map (fun p => (alignTo steps (tagCols p.1 p.2)).cols)).flatten⟩
  if showAll then joined else dropAnyMissing joined

/-- Number of missing cells in a table. -/
def missingCells (t : Table) : Nat :=
  (t.cols.map (fun c => c.2.countP Option.isNone)).sum

/-! ### Comparison engine: summary deltas — spec §4.3

Modelled from the spec: for exactly two runs,
`delta = value(run2) - value(run1)`; if the metric name contains one of
`loss`, `error`, `mse`, `mae` case-insensitively, a negative delta is
"better" and a positive one "worse"; for every other name the polarity
is inverted; a zero delta yields no label. -/

/-- Substring test on character lists. -/
def hasSub (pat : List Char) : List Char → Bool
  | [] => pat.isEmpty
  | c :: rest => pat.isPrefixOf (c :: rest) || hasSub pat rest

/-- The case-insensitive keywords marking a lower-is-better metric. -/
def lossKeywords : List String := ["loss", "error", "mse", "mae"]

/-- Does the metric name (case-insensitively) contain a loss keyword? -/
def lossLike (name : String) : Bool :=
  lossKeywords.any (fun k => hasSub k.data (toLowerStr name).data)

/-- The better/worse label of a summary delta; `none` for a zero delta. -/
def deltaLabel (name : String) (v1 v2 : Rat) : Option String :=
  let d := v2 - v1
  if d = 0 then none
  else if lossLike name then if d < 0 then some "better" else some "worse"
  else if 0 < d then some "better" else some "worse"

/-- One row of the two-run summary comparison: requires both sides to be
valid numeric values, and returns the delta and its label. -/
def summaryRow (name : String) (a b : Option Rat) : Option (Rat × Option String) :=
  match a, b with
  | some v1, some v2 => some (v2 - v1, deltaLabel name v1 v2)
  | _, _ => none

/-! ### Configuration flattening — spec §3

Modelled from the spec: `config` is "produced by recursively flattening
a nested configuration structure (nested maps are flattened by joining
keys with `.`; non-map leaves, including lists, are left as-is)", and
"non-map leaves (including empty maps) are never recursed into".
Nested maps are association lists in insertion order (Python dict);
`leaf` carries any non-map value (scalar or list). -/

/-- A nested configuration value: a scalar-or-list leaf, or a map. -/
inductive ConfigVal (α : Type) where
  | leaf (v : α)
  | map (entries : List (String × ConfigVal α))

/-- Join a child key onto a parent dotted key (an empty parent, the
top level, leaves the key as is). -/
def joinKey (parent k : String) : String :=
  if parent = "" then k else parent ++ "." ++ k

/-- Flatten the entries of a nested map under a parent key.  A non-empty
map value is recursed into with the `.`-joined key; anything else (a
leaf or an empty map) is emitted as-is. -/
def flattenEntries {α : Type} :
    List (String × ConfigVal α) → String → List (String × ConfigVal α)
  | [], _ => []
  | (k, v) :: rest, parent =>
    (match v with
     | .map (e :: es) => flattenEntries (e :: es) (joinKey parent k)
     | other => [(joinKey parent k, other)]) ++ flattenEntries rest parent

/-- Flatten a whole nested configuration map. -/
def flatten_config {α : Type} (entries : List (String × ConfigVal α)) :
    List (String × ConfigVal α) :=
  flattenEntries entries ""

/-- Lookup in the dictionary built from a key-value list: the last
binding of a key wins, as in Python `dict(items)`. -/
def dictLookup {α : Type} (l : List (String × ConfigVal α)) (k : String) :
    Option (ConfigVal α) :=
  (l.reverse.find? (fun e => e.1 = k)).map (·.2)

/-- Lookup along a nested path of keys. -/
def getPath {α : Type} : ConfigVal α → List String → Option (ConfigVal α)
  | v, [] => some v
  | .leaf _, _ :: _ => none
  | .map es, k :: ks =>
    match (es.find? (fun e => e.1 = k)).map (·.2) with
    | some v => getPath v ks
    | none => none

/-- A value the flattening never recurses into: a leaf or an empty map. -/
def isLeafLike {α : Type} : ConfigVal α → Bool
  | .map (_ :: _) => false
  | _ => true

/-- Join a key path with the `.` separator. -/
def joinDotted : List String → String
  | [] => ""
  | [k] => k
  | k :: ks => k ++ "." ++ joinDotted ks

/-- A usable map key: non-empty and free of the `.` separator. -/
def keyOk (k : String) : Bool := !(k = "") && !(k.data.contains '.')

mutual

/-- Well-formed nested configuration: at every level the keys are
usable and pairwise distinct (Python dict keys are unique). -/
def wfConfig {α : Type} : ConfigVal α → Bool
  | .leaf _ => true
  | .map es => wfEntries es

/-- Well-formedness of one map level; see `wfConfig`. -/
def wfEntries {α : Type} : List (String × ConfigVal α) → Bool
  | [] => true
  | (k, v) :: rest =>
    keyOk k && !(rest.any (fun e => e.1 = k)) && wfConfig v && wfEntries rest

end

end Productivity

namespace SyncClaude

/-!
### Embedding of `src/sync_claude.py`

Paths are lists of name segments; a path produced by `os.path.abspath`
is represented relative to an abstract absolute root, so "absolute"
means "extends the given root".  Directory trees model the part of the
filesystem `os.walk` traverses; symlinks are leaf entries (the script
walks with `followlinks=False` and never descends through a link).
-/

/-- A filesystem node: a regular file, a symlink (possibly dangling),
or a directory with named children. -/
inductive FsEntry where
  | file
  | symlink (target : List String)
  | dir (children : List (String × FsEntry))

/-- Is the node a directory? -/
def isDirE : FsEntry → Bool
  | .dir _ => true
  | _ => false

/-- Is the node a symlink? -/
def isLinkE : FsEntry → Bool
  | .symlink _ => true
  | _ => false

mutual

/-- Function `find_claude_directories` (`sync_claude.py` lines 9-32): walk from
the current directory (reached via `path` below the root), stop
descending past the depth limit, collect `.claude` subdirectories and
do not descend into a collected one. -/
def findClaudeAux (depth : Int) : FsEntry → List String → List (List String)
  | .file, _ => []
  | .symlink _, _ => []
  | .dir children, path =>
    if (path.length : Int) > depth then []
    else
      let hasC := children.any (fun c => c.1 = ".claude" && isDirE c.2)
      (if hasC then [path ++ [".claude"]] else [])
        ++ findClaudeChildren depth children path hasC

/-- Walk the listing: `os.walk` descends only into subdirectories, and
a collected `.claude` is removed from the listing first. -/
def findClaudeChildren (depth : Int) :
    List (String × FsEntry) → List String → Bool → List (List String)
  | [], _, _ => []
  | (n, e) :: rest, path, hasC =>
    (if isDirE e && !(hasC && n = ".claude") then
      findClaudeAux depth e (path ++ [n])
     else [])
      ++ findClaudeChildren depth rest path hasC

end

/-- Function `find_claude_directories` applied at an absolute root directory:
returned paths are the root extended by the collected relative paths. -/
def find_claude_directories (root : List String) (tree : FsEntry) (depth : Int) :
    List (List String) :=
  (findClaudeAux depth tree []).map (fun p => root ++ p)

mutual

/-- The symlink-removing traversal of `clean_old_symlinks`
(`sync_claude.py` lines 80-89): `os.walk` visits every directory and
unlinks each child that `os.path.islink` accepts; files and
directories are left untouched. -/
def cleanEntry : FsEntry → FsEntry
  | .dir children => .dir (cleanChildren children)
  | e => e

/-- Clean one directory listing; see `cleanEntry`. -/
def cleanChildren : List (String × FsEntry) → List (String × FsEntry)
  | [] => []
  | (n, e) :: rest =>
    if isLinkE e then cleanChildren rest
    else (n, cleanEntry e) :: cleanChildren rest

end

/-- Function `clean_old_symlinks` (`sync_claude.py` lines 66-91): raise
`SystemExit` when the given path is not a directory (before touching
anything), otherwise remove every symlink found by the walk. -/
def clean_old_symlinks (claudeDir : FsEntry) : Except String FsEntry :=
  match claudeDir with
  | .dir children => .ok (.dir (cleanChildren children))
  | _ => .error "ERROR: .claude directory does not exist"

/-- The node kind, forgetting directory contents. -/
inductive Kind where
  | fileK | dirK | linkK
deriving Repr, DecidableEq

/-- Kind of a node. -/
def kindOf : FsEntry → Kind
  | .file => .fileK
  | .symlink _ => .linkK
  | .dir _ => .dirK

/-- The kind of the entry reached by a relative path (never resolving
through symlinks). -/
def kindAt : FsEntry → List String → Option Kind
  | e, [] => some (kindOf e)
  | .dir children, n :: p =>
    match (children.find? (fun c => c.1 = n)).map (·.2) with
    | some e => kindAt e p
    | none => none
  | _, _ :: _ => none

/-- Erase a symlink kind: what remains visible of an entry kind after
the cleaning pass removes symlinks. -/
def dropLinkKind : Option Kind → Option Kind
  | some .linkK => none
  | r => r

mutual

/-- Distinct child names at every directory level (true of a real
filesystem). -/
def wfFs : FsEntry → Bool
  | .dir children => wfFsChildren children
  | _ => true

/-- See `wfFs`. -/
def wfFsChildren : List (String × FsEntry) → Bool
  | [] => true
  | (n, e) :: rest =>
    !(rest.any (fun c => c.1 = n)) && wfFs e && wfFsChildren rest

end

/-! ### The linking loop of `main` (lines 140-159)

The filesystem state seen through `os.path.lexists` and mutated by
`os.makedirs` / `os.symlink` is a flat list of (absolute path, kind)
entries; new entries are appended, nothing is ever removed or
replaced. -/

/-- One filesystem entry kind for the flat state. -/
inductive EntryKind where
  | fileK
  | dirK
  | linkK (target : List String)
deriving Repr, DecidableEq

/-- Flat filesystem state: association list from absolute path to kind. -/
structure FS where
  entries : List (List String × EntryKind)
deriving Repr, DecidableEq

/-- Test `os.path.lexists`: does any entry (including a dangling symlink)
occupy the path? -/
def FS.lexists (fs : FS) (p : List String) : Bool :=
  fs.entries.any (fun e => e.1 = p)

/-- The kind recorded at a path (first match). -/
def FS.lookup (fs : FS) (p : List String) : Option EntryKind :=
  (fs.entries.find? (fun e => e.1 = p)).map (·.2)

/-- Create an entry (append; never replaces an existing binding). -/
def FS.add (fs : FS) (p : List String) (k : EntryKind) : FS :=
  ⟨fs.entries ++ [(p, k)]⟩

/-- All non-empty ancestors of a path, shortest first (including the
path itself). -/
def ancestors (p : List String) : List (List String) :=
  (List.range p.length).map (fun i => p.take (i + 1))

/-- Call `os.makedirs(path, exist_ok=True)`: create the missing directories
along the path. -/
def FS.mkdirs (fs : FS) (p : List String) : FS :=
  (ancestors p).foldl (fun f q => if f.lexists q then f else f.add q .dirK) fs

/-- Function `ensure_parent_dir` (lines 60-63): make the parent directory. -/
def ensureParentDir (fs : FS) (p : List String) : FS :=
  fs.mkdirs p.dropLast

/-- Result of the linking loop: final state plus the two counters. -/
structure LinkResult where
  fs : FS
  linked : Nat
  skipped : Nat
deriving Repr, DecidableEq

/-- One iteration of the loop of `main` (lines 143-157): an endpoint is
`(srcAbs, relPath)`; if the target path `lexists` in any form it is
skipped, otherwise the parent is created and a symlink to the source is
made. -/
def linkStep (tgtRoot : List String) (acc : LinkResult)
    (ep : List String × List String) : LinkResult :=
  let tgt := tgtRoot ++ ep.2
  if acc.fs.lexists tgt then
    { acc with skipped := acc.skipped + 1 }
  else
    { fs := (ensureParentDir acc.fs tgt).add tgt (.linkK ep.1),
      linked := acc.linked + 1, skipped := acc.skipped }

/-- The whole linking loop of `main` over the endpoint list produced by
`iter_file_endpoints`. -/
def linkLoop (fs : FS) (tgtRoot : List String)
    (endpoints : List (List String × List String)) : LinkResult :=
  endpoints.foldl (linkStep tgtRoot) ⟨fs, 0, 0⟩

end SyncClaude

/-! ## Theorems -/

namespace Productivity

/-- Claim C2: every query-pipeline stage (row filter, column select,
derived-column eval, NaN-row suppression) applied to an empty table
(zero rows or zero columns) returns its input unchanged and raises no
error, for all parameter values. -/
theorem claim_C2 (t : Table) (expr pat ev : String) (hideAny : Bool)
    (h : t.isEmptyTab = true) :
    rowFilter t expr = .ok t ∧ selectStage t pat = (t, [])
      ∧ evalStage t ev = .ok t ∧ dropNaN t hideAny = t := by
  refine ⟨?_, ?_, ?_, ?_⟩ <;> simp [rowFilter, selectStage, evalStage, dropNaN, h]

/-- Witness for C2: a zero-row table (with a column), together with
unparsable filter and eval expressions, produces no error. -/
theorem claim_C2_witness :
    (Table.mk [] [("a", [])]).isEmptyTab = true
      ∧ (rowFilter ⟨[], [("a", [])]⟩ "@@not-an-expression" = .ok ⟨[], [("a", [])]⟩
        ∧ selectStage ⟨[], [("a", [])]⟩ "x|y" = (⟨[], [("a", [])]⟩, [])
        ∧ evalStage ⟨[], [("a", [])]⟩ "=bad=" = .ok ⟨[], [("a", [])]⟩
        ∧ dropNaN ⟨[], [("a", [])]⟩ true = ⟨[], [("a", [])]⟩) :=
  ⟨rfl, claim_C2 ⟨[], [("a", [])]⟩ "@@not-an-expression" "x|y" "=bad=" true rfl⟩

/-- Claim C7: the column-select stage keeps only exactly-matching
columns; when no requested name matches any column it returns an empty
table together with a warning naming the requested-but-missing columns
(the stage's type has no error outcome, so no fatal error can arise);
illustrated by the spec's example `select "x|y"` on columns `x, z`. -/
theorem claim_C7 (t : Table) (pat : String) (hne : t.isEmptyTab = false) :
    ((selectStage t pat).1.cols
        = t.cols.filter (fun c => (splitOnChar '|' pat).contains c.1))
      ∧ ((selectStage t pat).2
        = (splitOnChar '|' pat).filter (fun n => ¬ t.colNames.contains n))
      ∧ ((∀ n ∈ splitOnChar '|' pat, n ∉ t.colNames) →
          (selectStage t pat).1.cols = [] ∧ (selectStage t pat).1.steps = t.steps
            ∧ (selectStage t pat).1.isEmptyTab = true
            ∧ (selectStage t pat).2 = splitOnChar '|' pat)
      ∧ selectStage ⟨[0], [("x", [some 1]), ("z", [some 2])]⟩ "x|y"
        = (⟨[0], [("x", [some 1])]⟩, ["y"]) := by
  refine ⟨?_, ?_, ?_, ?_⟩
  · simp [selectStage, hne]
  · simp [selectStage, hne]
  · intro hmiss
    have hkept : t.cols.filter (fun c => decide (c.1 ∈ splitOnChar '|' pat)) = [] := by
      rw [List.filter_eq_nil_iff]
      intro c hc
      simp only [decide_eq_true_eq]
      intro hmem
      exact hmiss _ hmem (List.mem_map_of_mem _ hc)
    have hwarn : ∀ n ∈ splitOnChar '|' pat, (!decide (n ∈ t.colNames)) = true := by
      intro n hn
      simp [hmiss n hn]
    have hneP : ¬(t.steps = [] ∨ t.cols = []) := by
      intro h
      rcases h with h | h <;> simp [Table.isEmptyTab, h] at hne
    refine ⟨?_, ?_, ?_, ?_⟩
    · simp [selectStage, hne, hkept]
    · simp [selectStage, hne]
    · simp [selectStage, hne, hkept, hneP, Table.isEmptyTab]
    · simp [selectStage, hne, List.filter_eq_self.mpr hwarn]
  · rfl

/-- Witness for C7 at a concrete table and a fully-missing pattern. -/
theorem claim_C7_witness :
    (Table.mk [0] [("x", [some 1])]).isEmptyTab = false
      ∧ ((selectStage ⟨[0], [("x", [some 1])]⟩ "u|v").1.cols = []
          ∧ (selectStage ⟨[0], [("x", [some 1])]⟩ "u|v").1.steps = [0]
          ∧ (selectStage ⟨[0], [("x", [some 1])]⟩ "u|v").1.isEmptyTab = true
          ∧ (selectStage ⟨[0], [("x", [some 1])]⟩ "u|v").2 = ["u", "v"]) := by
  have h := (claim_C7 ⟨[0], [("x", [some 1])]⟩ "u|v" rfl).2.2.1 (by decide)
  exact ⟨rfl, h⟩

/-- Claim C4: for a two-run summary comparison and a metric with two
valid numeric values, the delta is `value(run2) - value(run1)`; for a
metric whose name contains `loss`, `error`, `mse` or `mae`
case-insensitively a negative delta is labeled "better" and a positive
one "worse"; for any other metric name the polarity is inverted; a zero
delta yields no label; illustrated on the spec's `val/loss` and
`accuracy` examples. -/
theorem claim_C4 :
    (∀ (name : String) (v1 v2 : Rat),
        summaryRow name (some v1) (some v2) = some (v2 - v1, deltaLabel name v1 v2))
      ∧ (∀ (name : String) (v1 v2 : Rat), lossLike name = true → v2 - v1 < 0 →
          deltaLabel name v1 v2 = some "better")
      ∧ (∀ (name : String) (v1 v2 : Rat), lossLike name = true → 0 < v2 - v1 →
          deltaLabel name v1 v2 = some "worse")
      ∧ (∀ (name : String) (v1 v2 : Rat), lossLike name = false → 0 < v2 - v1 →
          deltaLabel name v1 v2 = some "better")
      ∧ (∀ (name : String) (v1 v2 : Rat), lossLike name = false → v2 - v1 < 0 →
          deltaLabel name v1 v2 = some "worse")
      ∧ (∀ (name : String) (v : Rat), deltaLabel name v v = none)
      ∧ lossLike "val/loss" = true
      ∧ deltaLabel "val/loss" (1/2) (3/10) = some "better"
      ∧ ((3 : Rat)/10 - 1/2 = -(1/5))
      ∧ lossLike "accuracy" = false
      ∧ deltaLabel "accuracy" (4/5) (9/10) = some "better" := by
  refine ⟨fun name v1 v2 => rfl, ?_, ?_, ?_, ?_, ?_, ?_, ?_, ?_, ?_, ?_⟩
  · intro name v1 v2 hl hd
    simp [deltaLabel, hl, hd, ne_of_lt hd]
  · intro name v1 v2 hl hd
    simp [deltaLabel, hl, not_lt_of_gt hd, ne_of_gt hd]
  · intro name v1 v2 hl hd
    simp [deltaLabel, hl, hd, ne_of_gt hd]
  · intro name v1 v2 hl hd
    simp [deltaLabel, hl, not_lt_of_gt hd, ne_of_lt hd]
  · intro name v
    simp [deltaLabel]
  · decide
  · norm_num [deltaLabel, show lossLike "val/loss" = true from by decide]
  · norm_num
  · decide
  · norm_num [deltaLabel, show lossLike "accuracy" = false from by decide]

/-- Witness for C4: the loss-like implication at a concrete metric. -/
theorem claim_C4_witness :
    deltaLabel "train/mse" 2 1 = some "better" :=
  claim_C4.2.1 "train/mse" 2 1 (by decide) (by norm_num)

/-! ### Quoting invariants (C5)

The boundary check refuses any match whose neighbouring character is a
word character or a quote marker.  Hence the scan can never place a
quote marker next to an existing one: for every formula and column set
the rewritten formula contains no two adjacent quote markers (so no
occurrence is ever quoted twice), and the rewrite only ever inserts
quote markers, leaving all other characters unchanged. -/

/-- Dropping the head preserves the adjacent-marker predicate. -/
theorem noAdjBt_cons_of (c : Char) : ∀ (rest : List Char),
    noAdjBt (c :: rest) = true → noAdjBt rest = true
  | [], _ => rfl
  | c2 :: r2, h => by
    simp only [noAdjBt, Bool.and_eq_true] at h
    exact h.2

/-- Two adjacent characters of a marker-separated list are not both markers. -/
theorem noAdjBt_pair (c1 c2 : Char) (rest : List Char)
    (h : noAdjBt (c1 :: c2 :: rest) = true) : ¬(c1 = btChar ∧ c2 = btChar) := by
  simp only [noAdjBt, Bool.and_eq_true] at h
  intro hc
  have h1 := h.1
  rw [hc.1, hc.2] at h1
  simp at h1

/-- Dropping a leading segment preserves the adjacent-marker predicate. -/
theorem noAdjBt_drop : ∀ (n : Nat) (s : List Char),
    noAdjBt s = true → noAdjBt (s.drop n) = true
  | 0, _, h => h
  | _ + 1, [], h => h
  | n + 1, c :: rest, h => noAdjBt_drop n rest (noAdjBt_cons_of c rest h)

/-- A marker-free list has no adjacent markers. -/
theorem noAdjBt_of_not_mem : ∀ (l : List Char), btChar ∉ l → noAdjBt l = true
  | [], _ => rfl
  | [_], _ => rfl
  | c1 :: c2 :: r, h => by
    have h2 : noAdjBt (c2 :: r) = true :=
      noAdjBt_of_not_mem (c2 :: r) (fun hm => h (List.mem_cons_of_mem _ hm))
    have h1 : ¬(c1 = btChar) := fun he => h (by rw [← he]; exact List.mem_cons_self _ _)
    simp only [noAdjBt, Bool.and_eq_true]
    exact ⟨by simp [h1], h2⟩

/-- A list whose default-padded head is the marker contains the marker. -/
theorem headD_eq_bt_mem : ∀ (l : List Char), l.headD ' ' = btChar → btChar ∈ l
  | [], h => absurd h (by decide)
  | c :: cs, h => by
    have h' : c = btChar := h
    rw [← h']
    exact List.mem_cons_self c cs

/-- Extending on the left preserves the predicate when the new head is not a
marker sitting next to a marker. -/
theorem noAdjBt_cons_parts (c : Char) : ∀ (l : List Char), noAdjBt l = true →
    (c = btChar → l.headD ' ' ≠ btChar) → noAdjBt (c :: l) = true
  | [], _, _ => rfl
  | d :: ds, hl, hh => by
    simp only [noAdjBt, Bool.and_eq_true]
    refine ⟨?_, hl⟩
    by_cases hc : c = btChar
    · have hd : ¬(d = btChar) := hh hc
      simp [hd]
    · simp [hc]

/-- Concatenation preserves the predicate when the junction is safe. -/
theorem noAdjBt_append : ∀ (a b : List Char), noAdjBt a = true → noAdjBt b = true →
    (a.getLast? = some btChar → b.headD ' ' ≠ btChar) → noAdjBt (a ++ b) = true
  | [], _, _, hb, _ => hb
  | [x], b, _, hb, hj =>
    noAdjBt_cons_parts x b hb (fun hx => hj (by rw [List.getLast?_singleton, hx]))
  | x1 :: x2 :: a', b, ha, hb, hj => by
    have hrec : noAdjBt ((x2 :: a') ++ b) = true :=
      noAdjBt_append (x2 :: a') b (noAdjBt_cons_of x1 _ ha) hb
        (fun hl => hj (by rw [List.getLast?_cons_cons]; exact hl))
    have hp := noAdjBt_pair x1 x2 a' ha
    simp only [List.cons_append] at hrec ⊢
    simp only [noAdjBt, Bool.and_eq_true]
    refine ⟨?_, hrec⟩
    by_cases h1 : x1 = btChar
    · have h2 : ¬(x2 = btChar) := fun h2 => hp ⟨h1, h2⟩
      simp [h2]
    · simp [h1]

/-- Unfolding equation of the scan on a non-empty text. -/
theorem quoteScan_cons_eq (name : List Char) (fuel : Nat) (prev : Option Char)
    (c : Char) (rest : List Char) :
    quoteScan name (fuel + 1) prev (c :: rest)
      = if !name.isEmpty && name.isPrefixOf (c :: rest) && boundaryL prev
            && boundaryR ((c :: rest).drop name.length) then
          btChar :: (name ++ btChar :: quoteScan name fuel (some btChar)
            ((c :: rest).drop name.length))
        else
          c :: quoteScan name fuel (some c) rest := rfl

/-- Main scan invariant: for a marker-free name, a text without adjacent
quote markers is rewritten to a text without adjacent quote markers (so no
occurrence is ever quoted twice), and the output can only start with a
marker if the scan was allowed to match at the front or the input already
started with one. -/
theorem quoteScan_inv (name : List Char) (hbt : btChar ∉ name) :
    ∀ (fuel : Nat) (prev : Option Char) (s : List Char), noAdjBt s = true →
      noAdjBt (quoteScan name fuel prev s) = true
        ∧ ((quoteScan name fuel prev s).headD ' ' = btChar →
            boundaryL prev = true ∨ s.headD ' ' = btChar)
  | 0, _, _, hs => ⟨hs, fun hh => Or.inr hh⟩
  | _ + 1, _, [], _ =>
    ⟨rfl, fun hh => absurd (show (' ' : Char) = btChar from hh) (by decide)⟩
  | fuel + 1, prev, c :: rest, hs => by
    rw [quoteScan_cons_eq]
    by_cases hcond : (!name.isEmpty && name.isPrefixOf (c :: rest) && boundaryL prev
        && boundaryR ((c :: rest).drop name.length)) = true
    · rw [if_pos hcond]
      simp only [Bool.and_eq_true] at hcond
      obtain ⟨⟨⟨hne, _⟩, hbL⟩, hbR⟩ := hcond
      have hs' : noAdjBt ((c :: rest).drop name.length) = true := noAdjBt_drop _ _ hs
      obtain ⟨hr1, hr2⟩ := quoteScan_inv name hbt fuel (some btChar)
        ((c :: rest).drop name.length) hs'
      have hdh : ((c :: rest).drop name.length).headD ' ' ≠ btChar := by
        cases hd : (c :: rest).drop name.length with
        | nil => decide
        | cons d ds =>
          rw [hd] at hbR
          simp only [boundaryR] at hbR
          intro hx
          have hx' : d = btChar := hx
          rw [hx'] at hbR
          exact absurd hbR (by decide)
      have hrh : (quoteScan name fuel (some btChar)
          ((c :: rest).drop name.length)).headD ' ' ≠ btChar := by
        intro hx
        rcases hr2 hx with h1 | h2
        · exact absurd h1 (by decide)
        · exact hdh h2
      have hnamene : name ≠ [] := by
        intro h0
        rw [h0] at hne
        exact absurd hne (by decide)
      have hbtname : noAdjBt (btChar :: name) = true :=
        noAdjBt_cons_parts btChar name (noAdjBt_of_not_mem name hbt)
          (fun _ hx => hbt (headD_eq_bt_mem name hx))
      have hbtr : noAdjBt (btChar :: quoteScan name fuel (some btChar)
          ((c :: rest).drop name.length)) = true :=
        noAdjBt_cons_parts btChar _ hr1 (fun _ => hrh)
      have hjoin : (btChar :: name).getLast? = some btChar →
          (btChar :: quoteScan name fuel (some btChar)
            ((c :: rest).drop name.length)).headD ' ' ≠ btChar := by
        intro hl
        cases hn : name with
        | nil => exact absurd hn hnamene
        | cons n0 nt =>
          rw [hn, List.getLast?_cons_cons] at hl
          have hm : btChar ∈ n0 :: nt := List.mem_of_getLast?_eq_some hl
          rw [← hn] at hm
          exact absurd hm hbt
      refine ⟨?_, fun _ => Or.inl hbL⟩
      exact noAdjBt_append (btChar :: name) _ hbtname hbtr hjoin
    · rw [if_neg hcond]
      have hrest : noAdjBt rest = true := noAdjBt_cons_of c rest hs
      obtain ⟨hr1, hr2⟩ := quoteScan_inv name hbt fuel (some c) rest hrest
      refine ⟨?_, fun hh => Or.inr hh⟩
      apply noAdjBt_cons_parts c _ hr1
      intro hc hx
      rcases hr2 hx with h1 | h2
      · rw [hc] at h1
        exact absurd h1 (by decide)
      · cases hrr : rest with
        | nil =>
          rw [hrr] at h2
          exact absurd h2 (by decide)
        | cons d ds =>
          rw [hrr] at h2 hs
          have hd : d = btChar := h2
          exact noAdjBt_pair c d ds hs ⟨hc, hd⟩
termination_by fuel prev s hs => fuel

/-- Filtering out the marker from a marker-free list changes nothing. -/
theorem filter_ne_bt_eq : ∀ (l : List Char), btChar ∉ l →
    l.filter (fun c => !(c = btChar)) = l
  | [], _ => rfl
  | c :: cs, h => by
    have hc : ¬(c = btChar) := fun he => h (by rw [← he]; exact List.mem_cons_self c cs)
    have ht := filter_ne_bt_eq cs (fun hm => h (List.mem_cons_of_mem _ hm))
    simp [List.filter_cons, hc, ht]

/-- A list decomposes as any of its leading segments followed by the rest. -/
theorem isPrefixOf_append_drop : ∀ (a b : List Char),
    a.isPrefixOf b = true → a ++ b.drop a.length = b
  | [], _, _ => rfl
  | _ :: _, [], h => by simp [List.isPrefixOf] at h
  | x :: xs, y :: ys, h => by
    simp only [List.isPrefixOf, Bool.and_eq_true, beq_iff_eq] at h
    obtain ⟨h1, h2⟩ := h
    simp only [List.length_cons, List.drop_succ_cons, List.cons_append, h1]
    exact congrArg (fun t => y :: t) (isPrefixOf_append_drop xs ys h2)

/-- The scan only inserts quote markers: all other characters survive
unchanged, in order. -/
theorem quoteScan_filter (name : List Char) (hbt : btChar ∉ name) :
    ∀ (fuel : Nat) (prev : Option Char) (s : List Char),
      (quoteScan name fuel prev s).filter (fun c => !(c = btChar))
        = s.filter (fun c => !(c = btChar))
  | 0, _, _ => rfl
  | _ + 1, _, [] => rfl
  | fuel + 1, prev, c :: rest => by
    rw [quoteScan_cons_eq]
    by_cases hcond : (!name.isEmpty && name.isPrefixOf (c :: rest) && boundaryL prev
        && boundaryR ((c :: rest).drop name.length)) = true
    · rw [if_pos hcond]
      simp only [Bool.and_eq_true] at hcond
      obtain ⟨⟨⟨_, hpre⟩, _⟩, _⟩ := hcond
      have hdec : name ++ (c :: rest).drop name.length = c :: rest :=
        isPrefixOf_append_drop name (c :: rest) hpre
      have hIH := quoteScan_filter name hbt fuel (some btChar)
        ((c :: rest).drop name.length)
      have hname := filter_ne_bt_eq name hbt
      conv_rhs => rw [← hdec]
      rw [List.filter_cons, List.filter_append, List.filter_cons, hIH,
        List.filter_append, hname]
      simp
    · rw [if_neg hcond]
      rw [List.filter_cons, List.filter_cons,
        quoteScan_filter name hbt fuel (some c) rest]
termination_by fuel prev s => fuel

/-- Lifting the adjacent-marker invariant to one whole-string pass. -/
theorem quoteOne_noAdjBt (n f : String) (h2 : btChar ∉ n.data)
    (h3 : noAdjBt f.data = true) : noAdjBt (quoteOne n f).data = true :=
  (quoteScan_inv n.data h2 f.data.length none f.data h3).1

/-- Lifting the marker-insertion-only property to one whole-string pass. -/
theorem quoteOne_filter (n f : String) (h2 : btChar ∉ n.data) :
    (quoteOne n f).data.filter (fun c => !(c = btChar))
      = f.data.filter (fun c => !(c = btChar)) :=
  quoteScan_filter n.data h2 f.data.length none f.data

/-- The adjacent-marker invariant holds across all passes. -/
theorem foldl_quoteOne_noAdjBt : ∀ (names : List String) (f : String),
    (∀ n ∈ names, btChar ∉ n.data) → noAdjBt f.data = true →
    noAdjBt (names.foldl (fun g n => quoteOne n g) f).data = true
  | [], _, _, hf => hf
  | n :: ns, f, hns, hf =>
    foldl_quoteOne_noAdjBt ns (quoteOne n f)
      (fun m hm => hns m (List.mem_cons_of_mem _ hm))
      (quoteOne_noAdjBt n f (hns n (List.mem_cons_self _ _)) hf)

/-- The marker-insertion-only property holds across all passes. -/
theorem foldl_quoteOne_filter : ∀ (names : List String) (f : String),
    (∀ n ∈ names, btChar ∉ n.data) →
    (names.foldl (fun g n => quoteOne n g) f).data.filter (fun c => !(c = btChar))
      = f.data.filter (fun c => !(c = btChar))
  | [], _, _ => rfl
  | n :: ns, f, hns =>
    (foldl_quoteOne_filter ns (quoteOne n f)
      (fun m hm => hns m (List.mem_cons_of_mem _ hm))).trans
      (quoteOne_filter n f (hns n (List.mem_cons_self _ _)))

/-- Insertion into the length-sorted list preserves the members. -/
theorem mem_insertByLen (x y : String) : ∀ (l : List String),
    y ∈ insertByLen x l ↔ y = x ∨ y ∈ l
  | [] => by simp [insertByLen]
  | z :: zs => by
    by_cases h : z.length < x.length
    · simp [insertByLen, if_pos h, List.mem_cons]
    · simp only [insertByLen, if_neg h, List.mem_cons, mem_insertByLen x y zs]
      tauto

/-- Sorting by decreasing length preserves the members. -/
theorem mem_sortByLenDesc (y : String) : ∀ (l : List String),
    y ∈ sortByLenDesc l ↔ y ∈ l
  | [] => Iff.rfl
  | z :: zs => by
    rw [show sortByLenDesc (z :: zs) = insertByLen z (sortByLenDesc zs) from rfl,
      mem_insertByLen z y (sortByLenDesc zs), mem_sortByLenDesc y zs]
    simp [List.mem_cons]

/-- For every column set and formula the rewritten formula has no two
adjacent quote markers. -/
theorem quoteColumns_noAdjBt (cols : List String) (formula : String)
    (hc : ∀ n ∈ cols, btChar ∉ n.data) (hf : noAdjBt formula.data = true) :
    noAdjBt (quoteColumns cols formula).data = true :=
  foldl_quoteOne_noAdjBt (sortByLenDesc cols) formula
    (fun n hn => hc n ((mem_sortByLenDesc n cols).mp hn)) hf

/-- For every column set and formula the rewrite only inserts quote markers. -/
theorem quoteColumns_filter (cols : List String) (formula : String)
    (hc : ∀ n ∈ cols, btChar ∉ n.data) :
    (quoteColumns cols formula).data.filter (fun c => !(c = btChar))
      = formula.data.filter (fun c => !(c = btChar)) :=
  foldl_quoteOne_filter (sortByLenDesc cols) formula
    (fun n hn => hc n ((mem_sortByLenDesc n cols).mp hn))

/-- Claim C5 (amended): the eval stage's column-name rewriting quotes names
longest-first with a boundary check that blocks any match adjacent to a
word character or a quote marker.  Universally, for every formula and
column set (names free of the quote marker, formula without two adjacent
quote markers): no occurrence is ever quoted twice — the rewritten formula
never contains two adjacent quote markers — and the rewrite only inserts
quote markers, leaving every other character unchanged in order.  In
particular, with columns `train/loss` and `loss` (in either input order)
the formula `train/loss - loss` quotes `train/loss` as a single unit
without quoting its embedded `loss`, stand-alone occurrences of the
shorter name are still quoted, and re-running the rewrite over
already-quoted text changes nothing.  The further universal reading that
a shorter column name is never matched anywhere inside a longer column
name containing it as a substring is refuted by the separate
counterexample. -/
theorem claim_C5 :
    (∀ (cols : List String) (formula : String),
        (∀ n ∈ cols, btChar ∉ n.data) → noAdjBt formula.data = true →
        noAdjBt (quoteColumns cols formula).data = true)
      ∧ (∀ (cols : List String) (formula : String),
          (∀ n ∈ cols, btChar ∉ n.data) →
          (quoteColumns cols formula).data.filter (fun c => !(c = btChar))
            = formula.data.filter (fun c => !(c = btChar)))
      ∧ quoteColumns ["train/loss", "loss"] "train/loss - loss" = "`train/loss` - `loss`"
      ∧ quoteColumns ["loss", "train/loss"] "train/loss - loss" = "`train/loss` - `loss`"
      ∧ quoteColumns ["train/loss", "loss"] "loss + train/loss - loss"
        = "`loss` + `train/loss` - `loss`"
      ∧ quoteOne "loss" "`train/loss` - `loss`" = "`train/loss` - `loss`"
      ∧ quoteColumns ["train/loss", "loss"] "`train/loss` - `loss`"
        = "`train/loss` - `loss`" :=
  ⟨quoteColumns_noAdjBt, quoteColumns_filter,
    by decide, by decide, by decide, by decide, by decide⟩

/-- Witness for C5: the universal no-double-quoting conjunct applied at the
spec's example columns and formula. -/
theorem claim_C5_witness :
    ((∀ n ∈ ["train/loss", "loss"], btChar ∉ n.data)
        ∧ noAdjBt "train/loss - loss".data = true)
      ∧ noAdjBt (quoteColumns ["train/loss", "loss"] "train/loss - loss").data = true :=
  ⟨⟨by decide, by decide⟩,
    claim_C5.1 ["train/loss", "loss"] "train/loss - loss" (by decide) (by decide)⟩

/-- Counterexample for C5: the boundary check only blocks matches adjacent
to word characters or quote markers, and the slash is a legal column-name
character that is neither; so with columns `a/b/c` and `b` the shorter
name `b`, which occurs as a substring inside the longer name `a/b/c`, IS
matched and quoted inside the longer name's quoted occurrence: the
rewrite yields a torn-apart result instead of the single quoted unit. -/
theorem claim_C5_counterexample :
    hasSub "b".data "a/b/c".data = true
      ∧ "b".length < "a/b/c".length
      ∧ quoteColumns ["a/b/c", "b"] "a/b/c" = "`a/`b`/c`"
      ∧ quoteColumns ["a/b/c", "b"] "a/b/c" ≠ "`a/b/c`"
      ∧ quoteOne "b" "`a/b/c`" = "`a/`b`/c`" := by
  refine ⟨?_, ?_, ?_, ?_, ?_⟩ <;> decide

/-! ### Mask lemmas for stage idempotence (C6) -/

/-- Mapping commutes with mask filtering. -/
theorem filterMask_map {α β : Type} (f : α → β) :
    ∀ (m : List Bool) (l : List α), (filterMask m l).map f = filterMask m (l.map f)
  | [], l => by cases l <;> simp [filterMask]
  | true :: ms, [] => by simp [filterMask]
  | false :: ms, [] => by simp [filterMask]
  | true :: ms, a :: as => by simp [filterMask, filterMask_map f ms as]
  | false :: ms, a :: as => by simp [filterMask, filterMask_map f ms as]

/-- Every entry of a mask filtered by itself is `true`. -/
theorem filterMask_self_true : ∀ (m : List Bool), ∀ b ∈ filterMask m m, b = true
  | [], b, hb => by simp [filterMask] at hb
  | true :: ms, b, hb => by
    simp only [filterMask, List.mem_cons] at hb
    rcases hb with rfl | hb
    · rfl
    · exact filterMask_self_true ms b hb
  | false :: ms, b, hb => filterMask_self_true ms b hb

/-- Any filtered list is at most as long as the self-filtered mask. -/
theorem length_filterMask_le {α : Type} :
    ∀ (m : List Bool) (l : List α), (filterMask m l).length ≤ (filterMask m m).length
  | [], l => by cases l <;> simp [filterMask]
  | true :: ms, [] => by simp [filterMask]
  | false :: ms, [] => by simp [filterMask]
  | true :: ms, a :: as => by
    simpa [filterMask] using length_filterMask_le ms as
  | false :: ms, a :: as => by
    simpa [filterMask] using length_filterMask_le ms as

/-- An all-true mask at least as long as the list keeps it unchanged. -/
theorem filterMask_all_true {α : Type} :
    ∀ (m : List Bool) (l : List α), (∀ b ∈ m, b = true) → l.length ≤ m.length →
      filterMask m l = l
  | m, [], _, _ => by cases m with
    | nil => rfl
    | cons b ms => cases b <;> rfl
  | [], a :: as, _, hlen => by simp at hlen
  | b :: ms, a :: as, htrue, hlen => by
    have hb : b = true := htrue b (by simp)
    subst hb
    simp only [filterMask, List.cons.injEq, true_and]
    exact filterMask_all_true ms as (fun x hx => htrue x (by simp [hx]))
      (by simpa using hlen)

/-- Re-filtering a filtered list with the self-filtered mask is a no-op. -/
theorem filterMask_idem {α : Type} (m : List Bool) (l : List α) :
    filterMask (filterMask m m) (filterMask m l) = filterMask m l :=
  filterMask_all_true _ _ (filterMask_self_true m) (length_filterMask_le m l)

/-- Pointwise conjunction commutes with mask filtering. -/
theorem filterMask_zipWith_and :
    ∀ (m a b : List Bool),
      List.zipWith and (filterMask m a) (filterMask m b)
        = filterMask m (List.zipWith and a b)
  | [], a, b => by simp [filterMask]
  | true :: ms, [], b => by simp [filterMask]
  | false :: ms, [], b => by simp [filterMask]
  | true :: ms, a :: as, [] => by simp [filterMask]
  | false :: ms, a :: as, [] => by simp [filterMask]
  | true :: ms, a :: as, b :: bs => by
    simp [filterMask, filterMask_zipWith_and ms as bs]
  | false :: ms, a :: as, b :: bs => by
    simp [filterMask, filterMask_zipWith_and ms as bs]

/-- Filtering an all-true list of the same length as `l` yields an
all-true list as long as the filtered `l`. -/
theorem filterMask_replicate {α : Type} :
    ∀ (m : List Bool) (l : List α),
      filterMask m (List.replicate l.length true)
        = List.replicate (filterMask m l).length true
  | [], l => by cases l <;> simp [filterMask]
  | true :: ms, [] => by simp [filterMask]
  | false :: ms, [] => by simp [filterMask]
  | true :: ms, a :: as => by
    simp [filterMask, List.replicate_succ, filterMask_replicate ms as]
  | false :: ms, a :: as => by
    simp [filterMask, List.replicate_succ, filterMask_replicate ms as]

/-- Lookup by name over a value-rewriting map. -/
theorem find?_map_fst (g : List (Option Rat) → List (Option Rat)) (col : String) :
    ∀ (cols : List (String × List (Option Rat))),
      (cols.map (fun c => (c.1, g c.2))).find? (fun c => c.1 = col)
        = (cols.find? (fun c => c.1 = col)).map (fun c => (c.1, g c.2))
  | [] => rfl
  | c :: rest => by
    by_cases h : c.1 = col
    · simp [List.find?_cons, h]
    · simp [List.find?_cons, h, find?_map_fst g col rest]

/-- Column lookup in a row-masked table. -/
theorem getCol_applyMask (t : Table) (m : List Bool) (col : String) :
    (t.applyMask m).getCol col = (t.getCol col).map (filterMask m) := by
  simp only [Table.getCol, Table.applyMask, find?_map_fst (filterMask m) col t.cols]
  cases t.cols.find? (fun c => c.1 = col) <;> rfl

/-- The conjunction fold over masked columns is the mask-filtered fold
over the original columns. -/
theorem foldAnd_applyMask (f : Option Rat → Bool) (m : List Bool) :
    ∀ (cols : List (String × List (Option Rat))) (init : List Bool),
      ((cols.map (fun c => (c.1, filterMask m c.2))).foldl
          (fun acc c => List.zipWith and acc (c.2.map f)) (filterMask m init))
        = filterMask m (cols.foldl
            (fun acc c => List.zipWith and acc (c.2.map f)) init)
  | [], init => rfl
  | c :: rest, init => by
    simp only [List.map_cons, List.foldl_cons]
    rw [filterMask_map f m c.2, filterMask_zipWith_and,
      foldAnd_applyMask f m rest]

/-- The any-missing keep-mask of a masked table is the masked keep-mask. -/
theorem keepMaskAny_applyMask (t : Table) (m : List Bool) :
    keepMaskAny (t.applyMask m) = filterMask m (keepMaskAny t) := by
  simp only [keepMaskAny, Table.applyMask]
  rw [show (filterMask m t.steps).length = (filterMask m t.steps).length from rfl,
    ← foldAnd_applyMask Option.isSome m t.cols, filterMask_replicate m t.steps]

/-- The all-missing keep-mask of a masked table is the masked keep-mask. -/
theorem keepMaskAll_applyMask (t : Table) (m : List Bool) :
    keepMaskAll (t.applyMask m) = filterMask m (keepMaskAll t) := by
  simp only [keepMaskAll, Table.applyMask]
  rw [← filterMask_map not, ← foldAnd_applyMask Option.isNone m t.cols,
    filterMask_replicate m t.steps]

/-- Re-masking a masked table with the self-filtered mask is a no-op. -/
theorem applyMask_filterMask_self (t : Table) (m : List Bool) :
    (t.applyMask m).applyMask (filterMask m m) = t.applyMask m := by
  simp only [Table.applyMask, List.map_map, Table.mk.injEq]
  constructor
  · exact filterMask_idem m t.steps
  · refine List.map_congr_left (fun c _ => ?_)
    simp [filterMask_idem m c.2]

/-- Claim C6: the row-filter stage, the column-select stage and the
NaN-row-suppression stage are idempotent: applied a second time with
the same parameters to their own output, they return that output
unchanged. -/
theorem claim_C6 :
    (∀ (t : Table) (expr : String) (t2 : Table),
        rowFilter t expr = .ok t2 → rowFilter t2 expr = .ok t2)
      ∧ (∀ (t : Table) (pat : String),
          (selectStage (selectStage t pat).1 pat).1 = (selectStage t pat).1)
      ∧ (∀ (t : Table) (hideAny : Bool),
          dropNaN (dropNaN t hideAny) hideAny = dropNaN t hideAny) := by
  refine ⟨?_, ?_, ?_⟩
  · intro t expr t2 h
    by_cases hemp : t.isEmptyTab = true
    · simp only [rowFilter, hemp, if_true] at h
      cases h
      simp [rowFilter, hemp]
    · simp only [rowFilter, hemp, if_false, Bool.false_eq_true] at h
      rcases hp : parseFilter expr with _ | ⟨col, op, lit⟩ <;> simp only [hp] at h
      · simp at h
      · by_cases hcol : col = "step"
        · rw [if_pos hcol] at h
          cases h
          by_cases hemp2 :
              (t.applyMask (t.steps.map (fun s : Int => op.eval (s : Rat) lit))).isEmptyTab = true
          · simp [rowFilter, hemp2]
          · simp only [rowFilter, hemp2, if_false, Bool.false_eq_true, hp, if_pos hcol]
            have hsteps : (t.applyMask (t.steps.map (fun s : Int => op.eval (s : Rat) lit))).steps
                = filterMask (t.steps.map (fun s : Int => op.eval (s : Rat) lit)) t.steps := rfl
            rw [hsteps, filterMask_map, applyMask_filterMask_self]
        · rw [if_neg hcol] at h
          rcases hg : t.getCol col with _ | vals <;> simp only [hg] at h
          · simp at h
          · simp only [Except.ok.injEq] at h
            subst h
            by_cases hemp2 : (t.applyMask (vals.map (cellPred op lit))).isEmptyTab = true
            · simp [rowFilter, hemp2]
            · simp only [rowFilter, hemp2, if_false, Bool.false_eq_true, hp, if_neg hcol,
                getCol_applyMask, hg, Option.map_some']
              rw [filterMask_map, applyMask_filterMask_self]
  · intro t pat
    by_cases hemp : t.isEmptyTab = true
    · simp [selectStage, hemp]
    · have hfst : (selectStage t pat).1
          = ⟨t.steps, t.cols.filter (fun c => (splitOnChar '|' pat).contains c.1)⟩ := by
        simp only [selectStage]
        rw [if_neg hemp]
      rw [hfst]
      by_cases hke : t.cols.filter (fun c => (splitOnChar '|' pat).contains c.1) = []
      · have hemp2 : (Table.mk t.steps
            (t.cols.filter (fun c => (splitOnChar '|' pat).contains c.1))).isEmptyTab
              = true := by
          simp only [Table.isEmptyTab, hke, List.isEmpty_nil, Bool.or_true]
        simp only [selectStage]
        rw [if_pos hemp2]
      · have hse : ¬ t.steps = [] := by
          intro h0
          exact hemp (by simp [Table.isEmptyTab, h0])
        have hemp2 : ¬ (Table.mk t.steps
            (t.cols.filter (fun c => (splitOnChar '|' pat).contains c.1))).isEmptyTab
              = true := by
          simp only [Table.isEmptyTab, Bool.or_eq_true, List.isEmpty_iff]
          rintro (h | h)
          · exact hse h
          · exact hke h
        simp only [selectStage]
        rw [if_neg hemp2]
        simp [List.filter_filter, Bool.and_self]
  · intro t hideAny
    by_cases hemp : t.isEmptyTab = true
    · simp [dropNaN, hemp]
    · have hd : dropNaN t hideAny
          = t.applyMask (if hideAny then keepMaskAny t else keepMaskAll t) := by
        simp only [dropNaN]
        rw [if_neg hemp]
      rw [hd]
      cases hideAny
      · simp only [Bool.false_eq_true, if_false]
        by_cases hemp2 : (t.applyMask (keepMaskAll t)).isEmptyTab = true
        · simp only [dropNaN]
          rw [if_pos hemp2]
        · simp only [dropNaN]
          rw [if_neg hemp2]
          simp only [Bool.false_eq_true, if_false]
          rw [keepMaskAll_applyMask, applyMask_filterMask_self]
      · simp only [if_true]
        by_cases hemp2 : (t.applyMask (keepMaskAny t)).isEmptyTab = true
        · simp only [dropNaN]
          rw [if_pos hemp2]
        · simp only [dropNaN]
          rw [if_neg hemp2]
          simp only [if_true]
          rw [keepMaskAny_applyMask, applyMask_filterMask_self]

/-! ### Step-union lemmas for the history join (C3) -/

/-- Membership in an ordered insertion. -/
theorem mem_insertStep (s x : Int) :
    ∀ (l : List Int), x ∈ insertStep s l ↔ x = s ∨ x ∈ l
  | [] => by simp [insertStep]
  | y :: ys => by
    by_cases h1 : s < y
    · simp [insertStep, h1]
    · by_cases h2 : s = y
      · subst h2
        simp only [insertStep, if_neg h1, if_pos rfl]
        simp [List.mem_cons]
      · simp only [insertStep, if_neg h1, if_neg h2, List.mem_cons,
          mem_insertStep s x ys]
        tauto

/-- Ordered insertion preserves strict sortedness. -/
theorem pairwise_insertStep (s : Int) :
    ∀ (l : List Int), l.Pairwise (· < ·) → (insertStep s l).Pairwise (· < ·)
  | [], _ => by simp [insertStep]
  | y :: ys, h => by
    rcases List.pairwise_cons.mp h with ⟨hy, hys⟩
    by_cases h1 : s < y
    · simp only [insertStep, if_pos h1]
      refine List.pairwise_cons.mpr ⟨?_, h⟩
      intro z hz
      rcases List.mem_cons.mp hz with rfl | hz
      · exact h1
      · exact lt_trans h1 (hy z hz)
    · by_cases h2 : s = y
      · simpa [insertStep, h1, h2] using h
      · simp only [insertStep, if_neg h1, if_neg h2]
        refine List.pairwise_cons.mpr ⟨?_, pairwise_insertStep s ys hys⟩
        intro z hz
        rcases (mem_insertStep s z ys).mp hz with rfl | hz
        · exact lt_of_le_of_ne (not_lt.mp h1) (fun he => h2 he.symm)
        · exact hy z hz

/-- Membership in the insertion fold. -/
theorem mem_foldl_insertStep (x : Int) :
    ∀ (L init : List Int),
      x ∈ L.foldl (fun acc s => insertStep s acc) init ↔ x ∈ L ∨ x ∈ init
  | [], init => by simp
  | s :: rest, init => by
    simp only [List.foldl_cons]
    rw [mem_foldl_insertStep x rest (insertStep s init), mem_insertStep]
    simp only [List.mem_cons]
    tauto

/-- The insertion fold preserves strict sortedness. -/
theorem pairwise_foldl_insertStep :
    ∀ (L init : List Int), init.Pairwise (· < ·) →
      (L.foldl (fun acc s => insertStep s acc) init).Pairwise (· < ·)
  | [], _, h => h
  | s :: rest, init, h =>
    pairwise_foldl_insertStep rest (insertStep s init) (pairwise_insertStep s init h)

/-- A step present in no input table is absent from the union. -/
theorem stepUnion_mem (ts : List Table) (x : Int) :
    x ∈ stepUnion ts ↔ ∃ t ∈ ts, x ∈ t.steps := by
  rw [stepUnion, mem_foldl_insertStep]
  simp [List.mem_flatten]

/-- The union of steps is strictly ascending. -/
theorem stepUnion_sorted (ts : List Table) : (stepUnion ts).Pairwise (· < ·) :=
  pairwise_foldl_insertStep _ [] (List.Pairwise.nil)

/-- An absent step yields a missing cell. -/
theorem lookupStep_not_mem (tSteps : List Int) (vals : List (Option Rat)) (s : Int)
    (h : s ∉ tSteps) : lookupStep tSteps vals s = none := by
  rw [lookupStep]
  cases hf : (tSteps.zip vals).find? (fun p => p.1 = s) with
  | none => rfl
  | some p =>
    exfalso
    have hps : p.1 = s := by simpa using List.find?_some hf
    exact h (hps ▸ (List.of_mem_zip (List.mem_of_find?_eq_some hf)).1)

/-- Claim C3: the history comparison suffixes every run's column names
with its run-index tag and outer-joins the runs on the ascending union
of their step sets; show-all keeps every union step with missing cells
at absent (step, column) pairs, and non-show-all additionally drops
every row with a missing cell.  On the spec's example (run A with steps
0,1; run B with steps 1,2; one `loss` column each) show-all yields
steps 0,1,2 with exactly two missing cells and non-show-all yields only
step 1. -/
theorem claim_C3 :
    (∀ ts : List Table, (historyJoin ts true).steps = stepUnion ts)
      ∧ (∀ ts : List Table, (stepUnion ts).Pairwise (· < ·))
      ∧ (∀ (ts : List Table) (x : Int), x ∈ stepUnion ts ↔ ∃ t ∈ ts, x ∈ t.steps)
      ∧ (∀ (tSteps : List Int) (vals : List (Option Rat)) (s : Int),
          s ∉ tSteps → lookupStep tSteps vals s = none)
      ∧ (∀ (i : Nat) (t : Table),
          (tagCols i t).colNames
            = t.colNames.map (fun n => n ++ " (run" ++ toString i ++ ")"))
      ∧ (∀ ts : List Table, historyJoin ts false = dropAnyMissing (historyJoin ts true))
      ∧ historyJoin [⟨[0, 1], [("loss", [some 1, some 2])]⟩,
            ⟨[1, 2], [("loss", [some 3, some 4])]⟩] true
        = ⟨[0, 1, 2], [("loss (run0)", [some 1, some 2, none]),
            ("loss (run1)", [none, some 3, some 4])]⟩
      ∧ missingCells (historyJoin [⟨[0, 1], [("loss", [some 1, some 2])]⟩,
            ⟨[1, 2], [("loss", [some 3, some 4])]⟩] true) = 2
      ∧ historyJoin [⟨[0, 1], [("loss", [some 1, some 2])]⟩,
            ⟨[1, 2], [("loss", [some 3, some 4])]⟩] false
        = ⟨[1], [("loss (run0)", [some 2]), ("loss (run1)", [some 3])]⟩ := by
  refine ⟨fun ts => rfl, stepUnion_sorted, stepUnion_mem, lookupStep_not_mem,
    ?_, fun ts => rfl, ?_, ?_, ?_⟩
  · intro i t
    simp [tagCols, Table.colNames, List.map_map]
  · decide
  · decide
  · decide

/-- Witness for C3: the missing-cell implication at a concrete absent
step. -/
theorem claim_C3_witness :
    lookupStep [0, 1] [some 1, some 2] 2 = none :=
  claim_C3.2.2.2.1 [0, 1] [some 1, some 2] 2 (by decide)

/-- Witness for C6: the row-filter branch at a concrete table. -/
theorem claim_C6_witness :
    rowFilter ⟨[0, 1], [("a", [some 1, some 3])]⟩ "a>2"
        = .ok ⟨[1], [("a", [some 3])]⟩
      ∧ rowFilter ⟨[1], [("a", [some 3])]⟩ "a>2" = .ok ⟨[1], [("a", [some 3])]⟩ :=
  ⟨by rfl, claim_C6.1 ⟨[0, 1], [("a", [some 1, some 3])]⟩ "a>2"
    ⟨[1], [("a", [some 3])]⟩ (by rfl)⟩

end Productivity

namespace SyncClaude

/-! ### Lemmas for the linking loop (C9) -/

/-- The directory-creating fold only appends entries. -/
theorem foldl_mkdir_entries :
    ∀ (qs : List (List String)) (fs : FS),
      ∃ l, ((qs.foldl (fun f q => if f.lexists q then f else f.add q .dirK) fs)).entries
        = fs.entries ++ l
  | [], fs => ⟨[], by simp⟩
  | q :: qs, fs => by
    simp only [List.foldl_cons]
    by_cases h : fs.lexists q = true
    · rw [if_pos h]
      exact foldl_mkdir_entries qs fs
    · rw [if_neg h]
      obtain ⟨l, hl⟩ := foldl_mkdir_entries qs (fs.add q .dirK)
      refine ⟨(q, .dirK) :: l, ?_⟩
      rw [hl]
      simp [FS.add]

/-- One loop iteration only appends filesystem entries. -/
theorem linkStep_entries (r : List String) (acc : LinkResult)
    (ep : List String × List String) :
    ∃ l, (linkStep r acc ep).fs.entries = acc.fs.entries ++ l := by
  unfold linkStep
  by_cases h : acc.fs.lexists (r ++ ep.2) = true
  · rw [if_pos h]
    exact ⟨[], (List.append_nil _).symm⟩
  · rw [if_neg h]
    obtain ⟨l, hl⟩ := foldl_mkdir_entries (ancestors (r ++ ep.2).dropLast) acc.fs
    refine ⟨l ++ [(r ++ ep.2, .linkK ep.1)], ?_⟩
    have hl2 : (ensureParentDir acc.fs (r ++ ep.2)).entries = acc.fs.entries ++ l := hl
    show ((ensureParentDir acc.fs (r ++ ep.2)).add (r ++ ep.2) (.linkK ep.1)).entries
        = acc.fs.entries ++ (l ++ [(r ++ ep.2, .linkK ep.1)])
    simp only [FS.add, hl2, List.append_assoc]

/-- Appending entries preserves every existing binding. -/
theorem lookup_entries_append (fs : FS) (l : List (List String × EntryKind))
    (fs2 : FS) (hl : fs2.entries = fs.entries ++ l)
    (p : List String) (k : EntryKind) (h : fs.lookup p = some k) :
    fs2.lookup p = some k := by
  unfold FS.lookup at h ⊢
  rw [hl, List.find?_append]
  cases hf : fs.entries.find? (fun e => e.1 = p) with
  | none => rw [hf] at h; simp at h
  | some e => rw [hf] at h; simpa using h

/-- Appending entries preserves existence. -/
theorem lexists_entries_append (fs : FS) (l : List (List String × EntryKind))
    (fs2 : FS) (hl : fs2.entries = fs.entries ++ l)
    (p : List String) (h : fs.lexists p = true) : fs2.lexists p = true := by
  unfold FS.lexists at h ⊢
  rw [hl, List.any_append, h]
  rfl

/-- The loop never changes an existing binding. -/
theorem loop_lookup (r : List String) :
    ∀ (es : List (List String × List String)) (acc : LinkResult)
      (p : List String) (k : EntryKind), acc.fs.lookup p = some k →
      ((es.foldl (linkStep r) acc)).fs.lookup p = some k
  | [], acc, p, k, h => h
  | ep :: es, acc, p, k, h => by
    simp only [List.foldl_cons]
    obtain ⟨l, hl⟩ := linkStep_entries r acc ep
    exact loop_lookup r es _ p k (lookup_entries_append acc.fs l _ hl p k h)

/-- The loop preserves existence. -/
theorem loop_lexists (r : List String) :
    ∀ (es : List (List String × List String)) (acc : LinkResult)
      (p : List String), acc.fs.lexists p = true →
      ((es.foldl (linkStep r) acc)).fs.lexists p = true
  | [], acc, p, h => h
  | ep :: es, acc, p, h => by
    simp only [List.foldl_cons]
    obtain ⟨l, hl⟩ := linkStep_entries r acc ep
    exact loop_lexists r es _ p (lexists_entries_append acc.fs l _ hl p h)

/-- After one iteration the iteration's own target exists. -/
theorem linkStep_tgt (r : List String) (acc : LinkResult)
    (ep : List String × List String) :
    (linkStep r acc ep).fs.lexists (r ++ ep.2) = true := by
  unfold linkStep
  by_cases h : acc.fs.lexists (r ++ ep.2) = true
  · rw [if_pos h]
    exact h
  · rw [if_neg h]
    obtain ⟨l, hl⟩ :=
      foldl_mkdir_entries (ancestors (r ++ ep.2).dropLast) acc.fs
    simp [FS.lexists, FS.add]

/-- After the loop, every endpoint's target exists. -/
theorem loop_tgt_exists (r : List String) :
    ∀ (es : List (List String × List String)) (acc : LinkResult)
      (ep : List String × List String), ep ∈ es →
      ((es.foldl (linkStep r) acc)).fs.lexists (r ++ ep.2) = true
  | e :: es, acc, ep, hmem => by
    simp only [List.foldl_cons]
    rcases List.mem_cons.mp hmem with rfl | hmem
    · exact loop_lexists r es _ _ (linkStep_tgt r acc ep)
    · exact loop_tgt_exists r es _ ep hmem

/-- When every target already exists the loop only counts skips. -/
theorem loop_all_skip (r : List String) :
    ∀ (es : List (List String × List String)) (acc : LinkResult),
      (∀ ep ∈ es, acc.fs.lexists (r ++ ep.2) = true) →
      es.foldl (linkStep r) acc = ⟨acc.fs, acc.linked, acc.skipped + es.length⟩
  | [], acc, _ => by cases acc; simp
  | ep :: es, acc, h => by
    simp only [List.foldl_cons]
    have hstep : linkStep r acc ep = { acc with skipped := acc.skipped + 1 } := by
      unfold linkStep
      rw [if_pos (h ep (by simp))]
    rw [hstep]
    rw [loop_all_skip r es { acc with skipped := acc.skipped + 1 }
      (fun e he => h e (List.mem_cons_of_mem _ he))]
    simp only [LinkResult.mk.injEq, List.length_cons]
    exact ⟨trivial, trivial, by omega⟩

/-- Each iteration counts exactly one endpoint. -/
theorem loop_count (r : List String) :
    ∀ (es : List (List String × List String)) (acc : LinkResult),
      ((es.foldl (linkStep r) acc)).linked + ((es.foldl (linkStep r) acc)).skipped
        = acc.linked + acc.skipped + es.length
  | [], acc => by simp
  | ep :: es, acc => by
    simp only [List.foldl_cons, List.length_cons]
    rw [loop_count r es (linkStep r acc ep)]
    unfold linkStep
    by_cases h : acc.fs.lexists (r ++ ep.2) = true
    · rw [if_pos h]
      simp only []
      omega
    · rw [if_neg h]
      simp only []
      omega

/-- Claim C9: the linking loop of `main` never replaces an existing
filesystem entry — an endpoint whose target path already exists in any
form (`os.path.lexists`, including dangling symlinks) is skipped and
counted as skipped; every endpoint is counted exactly once; and a
second run of the loop with identical arguments over the unchanged
endpoint list creates zero new symlinks and leaves the filesystem
unchanged. -/
theorem claim_C9 :
    (∀ (r : List String) (acc : LinkResult) (ep : List String × List String),
        acc.fs.lexists (r ++ ep.2) = true →
        linkStep r acc ep = { acc with skipped := acc.skipped + 1 })
      ∧ (∀ (fs : FS) (r : List String) (es : List (List String × List String))
          (p : List String) (k : EntryKind), fs.lookup p = some k →
          (linkLoop fs r es).fs.lookup p = some k)
      ∧ (∀ (fs : FS) (r : List String) (es : List (List String × List String)),
          (linkLoop fs r es).linked + (linkLoop fs r es).skipped = es.length)
      ∧ (∀ (fs : FS) (r : List String) (es : List (List String × List String)),
          linkLoop (linkLoop fs r es).fs r es
            = ⟨(linkLoop fs r es).fs, 0, es.length⟩) := by
  refine ⟨?_, ?_, ?_, ?_⟩
  · intro r acc ep h
    unfold linkStep
    rw [if_pos h]
  · intro fs r es p k h
    exact loop_lookup r es ⟨fs, 0, 0⟩ p k h
  · intro fs r es
    have := loop_count r es ⟨fs, 0, 0⟩
    simpa [linkLoop] using this
  · intro fs r es
    have hall : ∀ ep ∈ es,
        (LinkResult.mk (linkLoop fs r es).fs 0 0).fs.lexists (r ++ ep.2) = true := by
      intro ep hep
      exact loop_tgt_exists r es ⟨fs, 0, 0⟩ ep hep
    have := loop_all_skip r es ⟨(linkLoop fs r es).fs, 0, 0⟩ hall
    simpa [linkLoop] using this

/-- Witness for C9: an existing target (a dangling symlink) is skipped. -/
theorem claim_C9_witness :
    (FS.mk [(["t", "a"], .linkK ["gone"])]).lexists (["t"] ++ ["a"]) = true
      ∧ linkStep ["t"] ⟨⟨[(["t", "a"], .linkK ["gone"])]⟩, 0, 0⟩ (["s", "a"], ["a"])
        = ⟨⟨[(["t", "a"], .linkK ["gone"])]⟩, 0, 1⟩ :=
  ⟨by decide, claim_C9.1 ["t"] ⟨⟨[(["t", "a"], .linkK ["gone"])]⟩, 0, 0⟩
    (["s", "a"], ["a"]) (by decide)⟩

end SyncClaude

namespace SyncClaude

/-! ### Lemmas for `clean_old_symlinks` (C10) -/

/-- Every entry of a cleaned listing is a cleaned non-symlink entry of
the original listing. -/
theorem mem_cleanChildren :
    ∀ (children : List (String × FsEntry)) (c : String × FsEntry),
      c ∈ cleanChildren children →
      ∃ e0, (c.1, e0) ∈ children ∧ isLinkE e0 = false ∧ c.2 = cleanEntry e0
  | [], c, hc => by simp [cleanChildren] at hc
  | (n, e) :: rest, c, hc => by
    by_cases hl : isLinkE e = true
    · rw [show cleanChildren ((n, e) :: rest) = cleanChildren rest from by
        simp [cleanChildren, hl]] at hc
      obtain ⟨e0, h1, h2, h3⟩ := mem_cleanChildren rest c hc
      exact ⟨e0, List.mem_cons_of_mem _ h1, h2, h3⟩
    · rw [show cleanChildren ((n, e) :: rest) = (n, cleanEntry e) :: cleanChildren rest
        from by simp [cleanChildren, hl]] at hc
      rcases List.mem_cons.mp hc with rfl | hc
    

      · exact ⟨e, by simp, by simpa using hl, rfl⟩
      · obtain ⟨e0, h1, h2, h3⟩ := mem_cleanChildren rest c hc
        exact ⟨e0, List.mem_cons_of_mem _ h1, h2, h3⟩

/-- A well-formed listing gives well-formed children. -/
theorem wf_child_mem :
    ∀ (children : List (String × FsEntry)) (m : String) (e0 : FsEntry),
      wfFsChildren children = true → (m, e0) ∈ children → wfFs e0 = true
  | (n, e) :: rest, m, e0, hwf, hmem => by
    rw [show wfFsChildren ((n, e) :: rest)
        = (!(rest.any (fun c => c.1 = n)) && wfFs e && wfFsChildren rest) from by
      simp [wfFsChildren]] at hwf
    have h3 := hwf
    simp only [Bool.and_eq_true] at h3
    rcases List.mem_cons.mp hmem with heq | hmem
    · cases heq
      exact h3.1.2
    · exact wf_child_mem rest m e0 h3.2 hmem

/-- Lookup in a cleaned listing with distinct names: a symlink entry
disappears, any other entry is found cleaned. -/
theorem find?_cleanChildren (n : String) :
    ∀ (children : List (String × FsEntry)), wfFsChildren children = true →
      (cleanChildren children).find? (fun c => c.1 = n)
        = match children.find? (fun c => c.1 = n) with
          | some me => if isLinkE me.2 then none else some (me.1, cleanEntry me.2)
          | none => none
  | [], _ => by simp [cleanChildren]
  | (m, e) :: rest, hwf => by
    rw [show wfFsChildren ((m, e) :: rest)
        = (!(rest.any (fun c => c.1 = m)) && wfFs e && wfFsChildren rest) from by
      simp [wfFsChildren]] at hwf
    have h3 := hwf
    simp only [Bool.and_eq_true] at h3
    have hno : rest.any (fun c => c.1 = m) = false := by
      simpa using h3.1.1
    have hwfr : wfFsChildren rest = true := h3.2
    by_cases hl : isLinkE e = true
    · rw [show cleanChildren ((m, e) :: rest) = cleanChildren rest from by
        simp [cleanChildren, hl]]
      by_cases hn : m = n
      · subst hn
        rw [show ((m, e) :: rest).find? (fun c => c.1 = m) = some (m, e) from by
          simp [List.find?_cons]]
        simp only [hl, if_true]
        rw [List.find?_eq_none]
        intro c hc
        obtain ⟨e0, h1, _, _⟩ := mem_cleanChildren rest c hc
        have : c.1 ≠ m := by
          intro heq
          have : rest.any (fun c2 => c2.1 = m) = true :=
            List.any_eq_true.mpr ⟨(c.1, e0), h1, by simp [heq]⟩
          rw [this] at hno
          exact Bool.true_eq_false.mp hno
        simpa using this
      · rw [show ((m, e) :: rest).find? (fun c => c.1 = n) = rest.find? (fun c => c.1 = n)
          from by simp [List.find?_cons, hn]]
        exact find?_cleanChildren n rest hwfr
    · rw [show cleanChildren ((m, e) :: rest) = (m, cleanEntry e) :: cleanChildren rest
        from by simp [cleanChildren, hl]]
      by_cases hn : m = n
      · subst hn
        simp [List.find?_cons, hl]
      · rw [show ((m, cleanEntry e) :: cleanChildren rest).find? (fun c => c.1 = n)
            = (cleanChildren rest).find? (fun c => c.1 = n) from by
          simp [List.find?_cons, hn]]
        rw [show ((m, e) :: rest).find? (fun c => c.1 = n) = rest.find? (fun c => c.1 = n)
          from by simp [List.find?_cons, hn]]
        exact find?_cleanChildren n rest hwfr

/-- Cleaning never changes an entry's kind. -/
theorem kindOf_cleanEntry (e : FsEntry) : kindOf (cleanEntry e) = kindOf e := by
  cases e <;> simp [cleanEntry, kindOf]

/-- The pointwise effect of cleaning: below the root, symlink entries
disappear and every other entry keeps its kind. -/
theorem kindAt_cleanEntry :
    ∀ (p : List String) (e : FsEntry), wfFs e = true → p ≠ [] →
      kindAt (cleanEntry e) p = dropLinkKind (kindAt e p)
  | [], _, _, hne => absurd rfl hne
  | n :: ps, .file, _, _ => by simp [cleanEntry, kindAt, dropLinkKind]
  | n :: ps, .symlink tgt, _, _ => by simp [cleanEntry, kindAt, dropLinkKind]
  | n :: ps, .dir children, hwf, _ => by
    have hwfch : wfFsChildren children = true := by
      rw [show wfFs (FsEntry.dir children) = wfFsChildren children from by
        simp [wfFs]] at hwf
      exact hwf
    rw [show cleanEntry (FsEntry.dir children) = .dir (cleanChildren children) from by
      simp [cleanEntry]]
    show (match ((cleanChildren children).find? (fun c => c.1 = n)).map (·.2) with
        | some e2 => kindAt e2 ps
        | none => none)
      = dropLinkKind (match (children.find? (fun c => c.1 = n)).map (·.2) with
        | some e2 => kindAt e2 ps
        | none => none)
    rw [find?_cleanChildren n children hwfch]
    cases hf : children.find? (fun c => c.1 = n) with
    | none => simp [dropLinkKind]
    | some me =>
      by_cases hl : isLinkE me.2 = true
      · simp only [hl, if_true, Option.map_none', Option.map_some']
        cases me with
        | mk m e0 =>
          cases e0 with
          | symlink tgt =>
            cases ps with
            | nil => simp [kindAt, kindOf, dropLinkKind]
            | cons q qs => simp [kindAt, dropLinkKind]
          | file => simp [isLinkE] at hl
          | dir ch => simp [isLinkE] at hl
      · simp only [hl, if_false, Bool.false_eq_true, Option.map_some']
        cases ps with
        | nil =>
          cases me with
          | mk m e0 =>
            cases e0 with
            | symlink tgt => simp [isLinkE] at hl
            | file => simp [kindAt, kindOf, cleanEntry, dropLinkKind]
            | dir ch => simp [kindAt, kindOf, cleanEntry, dropLinkKind]
        | cons q qs =>
          exact kindAt_cleanEntry (q :: qs) me.2
            (wf_child_mem children me.1 me.2 hwfch
              (by simpa using List.mem_of_find?_eq_some hf))
            (by simp)

/-- Claim C10: `clean_old_symlinks` raises `SystemExit` before removing
anything when the given path is not a directory; on a directory it
removes exactly the symlink entries of the walked tree — for every
path below the root, a symlink entry disappears while regular files
and directories keep their kind unchanged. -/
theorem claim_C10 :
    (∀ e : FsEntry, isDirE e = false →
        clean_old_symlinks e = .error "ERROR: .claude directory does not exist")
      ∧ (∀ e e2 : FsEntry, clean_old_symlinks e = .ok e2 → wfFs e = true →
          ∀ p : List String, p ≠ [] → kindAt e2 p = dropLinkKind (kindAt e p))
      ∧ (∀ e e2 : FsEntry, clean_old_symlinks e = .ok e2 →
          kindAt e2 [] = some .dirK) := by
  refine ⟨?_, ?_, ?_⟩
  · intro e he
    cases e with
    | file => rfl
    | symlink tgt => rfl
    | dir ch => simp [isDirE] at he
  · intro e e2 hok hwf p hp
    cases e with
    | file => exact absurd hok (by simp [clean_old_symlinks])
    | symlink tgt => exact absurd hok (by simp [clean_old_symlinks])
    | dir ch =>
      have he2 : e2 = .dir (cleanChildren ch) := by
        have : clean_old_symlinks (FsEntry.dir ch) = .ok (.dir (cleanChildren ch)) := rfl
        rw [this] at hok
        exact (Except.ok.injEq _ _ ▸ hok).symm ▸ rfl
      subst he2
      have : cleanEntry (FsEntry.dir ch) = .dir (cleanChildren ch) := by
        simp [cleanEntry]
      rw [← this]
      exact kindAt_cleanEntry p (.dir ch) hwf hp
  · intro e e2 hok
    cases e with
    | file => exact absurd hok (by simp [clean_old_symlinks])
    | symlink tgt => exact absurd hok (by simp [clean_old_symlinks])
    | dir ch =>
      have : clean_old_symlinks (FsEntry.dir ch) = .ok (.dir (cleanChildren ch)) := rfl
      rw [this] at hok
      cases hok
      rfl

/-- Witness for C10: on a directory holding a symlink and a file, the
symlink entry disappears and the file keeps its kind. -/
theorem claim_C10_witness :
    kindAt (.dir [("f", .file)]) ["s"]
        = dropLinkKind (kindAt (.dir [("s", .symlink ["x"]), ("f", .file)]) ["s"])
      ∧ kindAt (.dir [("f", .file)]) ["f"]
        = dropLinkKind (kindAt (.dir [("s", .symlink ["x"]), ("f", .file)]) ["f"]) := by
  have hok : clean_old_symlinks (.dir [("s", .symlink ["x"]), ("f", .file)])
      = .ok (.dir [("f", .file)]) := by
    simp [clean_old_symlinks, cleanChildren, cleanEntry, isLinkE]
  have hwf : wfFs (.dir [("s", .symlink ["x"]), ("f", .file)]) = true := by
    simp [wfFs, wfFsChildren, isLinkE]
  exact ⟨claim_C10.2.1 _ _ hok hwf ["s"] (by simp),
    claim_C10.2.1 _ _ hok hwf ["f"] (by simp)⟩

end SyncClaude

namespace SyncClaude

/-! ### Lemmas for `find_claude_directories` (C8) -/

/-- Inversion for the child walk: every found path comes from a
subdirectory that the walk descends into (and a collected `.claude`
is never descended into). -/
theorem mem_findClaudeChildren (depth : Int) :
    ∀ (children : List (String × FsEntry)) (path : List String) (hasC : Bool)
      (q : List String), q ∈ findClaudeChildren depth children path hasC →
      ∃ n e0, (n, e0) ∈ children ∧ isDirE e0 = true
        ∧ ¬(hasC = true ∧ n = ".claude")
        ∧ q ∈ findClaudeAux depth e0 (path ++ [n])
  | [], path, hasC, q, hq => by simp [findClaudeChildren] at hq
  | (n, e) :: rest, path, hasC, q, hq => by
    rw [show findClaudeChildren depth ((n, e) :: rest) path hasC
        = (if isDirE e && !(hasC && n = ".claude") then
            findClaudeAux depth e (path ++ [n])
          else [])
          ++ findClaudeChildren depth rest path hasC from by
      simp [findClaudeChildren]] at hq
    rcases List.mem_append.mp hq with hq | hq
    · by_cases hcond : (isDirE e && !(hasC && n = ".claude")) = true
      · rw [if_pos hcond] at hq
        simp only [Bool.and_eq_true, Bool.not_eq_true'] at hcond
        refine ⟨n, e, by simp, hcond.1, ?_, hq⟩
        intro hand
        have h2 := hcond.2
        rw [hand.1, hand.2] at h2
        simp at h2
      · rw [if_neg hcond] at hq
        simp at hq
    · obtain ⟨n2, e2, h1, h2, h3, h4⟩ :=
        mem_findClaudeChildren depth rest path hasC q hq
      exact ⟨n2, e2, List.mem_cons_of_mem _ h1, h2, h3, h4⟩

/-- Shape of every found path: it extends the walk's current path by a
non-empty relative path that ends in `.claude` and passes through no
other `.claude` component. -/
theorem findClaude_shape (depth : Int) (N : Nat) :
    ∀ (e : FsEntry), sizeOf e ≤ N →
      ∀ (path q : List String), q ∈ findClaudeAux depth e path →
      ∃ r, q = path ++ r ∧ r ≠ [] ∧ r.getLast? = some ".claude"
        ∧ ".claude" ∉ r.dropLast := by
  induction N with
  | zero =>
    intro e hN
    exfalso
    cases e <;> simp_arith at hN
  | succ N ih =>
    intro e hN path q hq
    cases e with
    | file =>
      rw [show findClaudeAux depth .file path = [] from by simp [findClaudeAux]] at hq
      simp at hq
    | symlink tgt =>
      rw [show findClaudeAux depth (.symlink tgt) path = [] from by
        simp [findClaudeAux]] at hq
      simp at hq
    | dir children =>
      rw [show findClaudeAux depth (.dir children) path
          = if (path.length : Int) > depth then []
            else
              (if children.any (fun c => c.1 = ".claude" && isDirE c.2) then
                [path ++ [".claude"]]
              else [])
                ++ findClaudeChildren depth children path
                  (children.any (fun c => c.1 = ".claude" && isDirE c.2)) from by
        simp [findClaudeAux]] at hq
      by_cases hd : (path.length : Int) > depth
      · rw [if_pos hd] at hq
        simp at hq
      · rw [if_neg hd] at hq
        rcases List.mem_append.mp hq with hq | hq
        · by_cases hasC : children.any (fun c => c.1 = ".claude" && isDirE c.2) = true
          · rw [if_pos hasC] at hq
            simp only [List.mem_singleton] at hq
            exact ⟨[".claude"], hq, by simp, by simp, by simp⟩
          · rw [if_neg hasC] at hq
            simp at hq
        · obtain ⟨n, e0, hmem, hdir, hnc, hq2⟩ :=
            mem_findClaudeChildren depth children path _ q hq
          have hne : n ≠ ".claude" := by
            intro hn
            exact hnc ⟨List.any_eq_true.mpr ⟨(n, e0), hmem, by simp [hn, hdir]⟩, hn⟩
          have hsz : sizeOf e0 ≤ N := by
            have h1 : sizeOf (n, e0) < sizeOf children := List.sizeOf_lt_of_mem hmem
            have h2 : sizeOf (n, e0) = 1 + sizeOf n + sizeOf e0 := rfl
            have h3 : sizeOf (FsEntry.dir children) = 1 + sizeOf children := by simp
            omega
          obtain ⟨r0, hq3, hr0ne, hr0last, hr0drop⟩ := ih e0 hsz (path ++ [n]) q hq2
          cases r0 with
          | nil => exact absurd rfl hr0ne
          | cons a r0 =>
            refine ⟨n :: a :: r0, ?_, by simp, ?_, ?_⟩
            · rw [hq3, List.append_assoc]
              rfl
            · rw [List.getLast?_cons_cons]
              exact hr0last
            · rw [List.dropLast_cons₂]
              intro hmem2
              rcases List.mem_cons.mp hmem2 with heq | hmem2
              · exact hne heq.symm
              · exact hr0drop hmem2

/-- Claim C8: `find_claude_directories` returns the empty list for a
negative depth; every returned path extends the given absolute root
(hence is absolute) and its final component is `.claude`; and no
returned path lies strictly inside another returned `.claude`
directory, because the walk never descends into a collected one. -/
theorem claim_C8 :
    (∀ (root : List String) (tree : FsEntry) (depth : Int), depth < 0 →
        find_claude_directories root tree depth = [])
      ∧ (∀ (root : List String) (tree : FsEntry) (depth : Int) (p : List String),
          p ∈ find_claude_directories root tree depth →
          (∃ rel, p = root ++ rel ∧ rel ≠ []) ∧ p.getLast? = some ".claude")
      ∧ (∀ (root : List String) (tree : FsEntry) (depth : Int)
          (p q ext : List String),
          p ∈ find_claude_directories root tree depth →
          q ∈ find_claude_directories root tree depth →
          q = p ++ ext → ext = []) := by
  have hshape : ∀ (tree : FsEntry) (depth : Int) (q : List String),
      q ∈ findClaudeAux depth tree [] →
      q ≠ [] ∧ q.getLast? = some ".claude" ∧ ".claude" ∉ q.dropLast := by
    intro tree depth q hq
    obtain ⟨r, hr1, hr2, hr3, hr4⟩ :=
      findClaude_shape depth (sizeOf tree) tree (Nat.le_refl _) [] q hq
    rw [hr1]
    simpa using ⟨hr2, hr3, hr4⟩
  refine ⟨?_, ?_, ?_⟩
  · intro root tree depth h
    cases tree with
    | file => simp [find_claude_directories, findClaudeAux]
    | symlink tgt => simp [find_claude_directories, findClaudeAux]
    | dir children =>
      have : findClaudeAux depth (.dir children) [] = [] := by
        rw [show findClaudeAux depth (.dir children) []
            = if (([] : List String).length : Int) > depth then []
              else
                (if children.any (fun c => c.1 = ".claude" && isDirE c.2) then
                  [([] : List String) ++ [".claude"]]
                else [])
                  ++ findClaudeChildren depth children []
                    (children.any (fun c => c.1 = ".claude" && isDirE c.2)) from by
          simp [findClaudeAux]]
        rw [if_pos (by simpa using h)]
      simp [find_claude_directories, this]
  · intro root tree depth p hp
    simp only [find_claude_directories, List.mem_map] at hp
    obtain ⟨rel, hrel, rfl⟩ := hp
    obtain ⟨h1, h2, h3⟩ := hshape tree depth rel hrel
    refine ⟨⟨rel, rfl, h1⟩, ?_⟩
    rw [List.getLast?_append, h2]
    rfl
  · intro root tree depth p q ext hp hq heq
    simp only [find_claude_directories, List.mem_map] at hp hq
    obtain ⟨rp, hrp, rfl⟩ := hp
    obtain ⟨rq, hrq, rfl⟩ := hq
    obtain ⟨hp1, hp2, hp3⟩ := hshape tree depth rp hrp
    obtain ⟨hq1, hq2, hq3⟩ := hshape tree depth rq hrq
    by_contra hne
    have hcancel : rq = rp ++ ext :=
      List.append_cancel_left
        (show root ++ rq = root ++ (rp ++ ext) by rw [heq, List.append_assoc])
    have hdl : rq.dropLast = rp ++ ext.dropLast := by
      rw [hcancel, List.dropLast_append_of_ne_nil _ hne]
    have hmem : ".claude" ∈ rq.dropLast := by
      rw [hdl]
      exact List.mem_append_left _ (List.mem_of_getLast?_eq_some hp2)
    exact hq3 hmem

/-- Witness for C8: a negative depth returns nothing even when a
`.claude` directory exists. -/
theorem claim_C8_witness :
    find_claude_directories ["home"] (.dir [(".claude", .dir [])]) (-1) = [] :=
  claim_C8.1 ["home"] (.dir [(".claude", .dir [])]) (-1) (by decide)

end SyncClaude

namespace Productivity

/-! ### String lemmas for configuration flattening (C1) -/

/-- Cancellation around the first separator: two separator-free prefixes
followed by a separator determine each other. -/
theorem chars_cancel :
    ∀ (a b r s : List Char), '.' ∉ a → '.' ∉ b →
      a ++ '.' :: r = b ++ '.' :: s → a = b ∧ r = s
  | [], [], r, s, _, _, h => ⟨rfl, by simpa using h⟩
  | [], c :: b, r, s, _, hb, h => by
    simp only [List.nil_append, List.cons_append, List.cons.injEq] at h
    exact absurd (by simp [← h.1]) hb
  | c :: a, [], r, s, ha, _, h => by
    simp only [List.nil_append, List.cons_append, List.cons.injEq] at h
    exact absurd (by simp [h.1]) ha
  | c :: a, c2 :: b, r, s, ha, hb, h => by
    simp only [List.cons_append, List.cons.injEq] at h
    obtain ⟨rfl, h2⟩ := h
    obtain ⟨h3, h4⟩ := chars_cancel a b r s
      (fun hm => ha (List.mem_cons_of_mem _ hm))
      (fun hm => hb (List.mem_cons_of_mem _ hm)) h2
    exact ⟨by rw [h3], h4⟩

/-- Left cancellation for string concatenation. -/
theorem str_cancel_left (a b c : String) (h : a ++ b = a ++ c) : b = c := by
  apply String.ext
  have h2 := congrArg String.data h
  simp only [String.data_append] at h2
  exact List.append_cancel_left h2

/-- A usable key is non-empty and separator-free. -/
theorem keyOk_iff (k : String) (h : keyOk k = true) :
    k ≠ "" ∧ '.' ∉ k.data := by
  simp only [keyOk, Bool.and_eq_true, Bool.not_eq_true', decide_eq_false_iff_not] at h
  refine ⟨h.1, ?_⟩
  intro hm
  have : k.data.contains '.' = true := by
    simpa [List.elem_eq_mem] using hm
  rw [this] at h
  exact Bool.true_eq_false.mp h.2

/-- Data of a dotted concatenation. -/
theorem dotted_data (k t : String) :
    (k ++ "." ++ t).data = k.data ++ '.' :: t.data := by
  simp [String.data_append]

/-- A separator-free string is never a dotted concatenation. -/
theorem dotfree_ne_dotted (k k2 t : String) (hk : '.' ∉ k.data) :
    k ≠ k2 ++ "." ++ t := by
  intro h
  apply hk
  rw [congrArg String.data h, dotted_data]
  exact List.mem_append_right _ (by simp)

/-- Cancellation of dotted concatenations with separator-free heads. -/
theorem dotted_cancel (k1 k2 t1 t2 : String)
    (h1 : '.' ∉ k1.data) (h2 : '.' ∉ k2.data)
    (h : k1 ++ "." ++ t1 = k2 ++ "." ++ t2) : k1 = k2 ∧ t1 = t2 := by
  have hd := congrArg String.data h
  rw [dotted_data, dotted_data] at hd
  obtain ⟨hl, hr⟩ := chars_cancel _ _ _ _ h1 h2 hd
  exact ⟨String.ext hl, String.ext hr⟩

/-- A joined key of a usable key is never empty. -/
theorem joinKey_ne_empty (parent k : String) (hk : keyOk k = true) :
    joinKey parent k ≠ "" := by
  obtain ⟨hne, _⟩ := keyOk_iff k hk
  unfold joinKey
  by_cases hp : parent = ""
  · rw [if_pos hp]
    exact hne
  · rw [if_neg hp]
    intro h
    have := congrArg String.data h
    rw [dotted_data] at this
    simp at this

/-- Joining under a non-empty parent is a dotted concatenation. -/
theorem joinKey_of_ne_empty (parent k : String) (hp : parent ≠ "") :
    joinKey parent k = parent ++ "." ++ k := by
  unfold joinKey
  rw [if_neg hp]

/-- Data of a joined key under a non-empty parent. -/
theorem joinKey_data (parent k : String) (hp : parent ≠ "") :
    (joinKey parent k).data = parent.data ++ '.' :: k.data := by
  rw [joinKey_of_ne_empty parent k hp, dotted_data]

/-- The join is injective in the key. -/
theorem joinKey_inj (parent k1 k2 : String)
    (h : joinKey parent k1 = joinKey parent k2) : k1 = k2 := by
  by_cases hp : parent = ""
  · unfold joinKey at h
    rwa [if_pos hp, if_pos hp] at h
  · have hd := congrArg String.data h
    rw [joinKey_data parent k1 hp, joinKey_data parent k2 hp] at hd
    have := List.append_cancel_left hd
    exact String.ext (by simpa using this)

/-- A plain joined key never equals a deeper joined key. -/
theorem joinKey_ne_deep (parent k1 k2 t : String) (hk1 : keyOk k1 = true) :
    joinKey parent k1 ≠ joinKey parent k2 ++ "." ++ t := by
  obtain ⟨_, hdot⟩ := keyOk_iff k1 hk1
  intro h
  have hd := congrArg String.data h
  rw [dotted_data] at hd
  by_cases hp : parent = ""
  · unfold joinKey at hd
    rw [if_pos hp, if_pos hp] at hd
    exact hdot (hd ▸ List.mem_append_right _ (by simp))
  · rw [joinKey_data parent k1 hp, joinKey_data parent k2 hp] at hd
    rw [List.append_assoc] at hd
    have h2 := List.append_cancel_left hd
    simp only [List.cons_append, List.cons.injEq, true_and] at h2
    exact hdot (h2 ▸ List.mem_append_right _ (by simp))

/-- Deep joined keys with usable heads cancel. -/
theorem joinKey_deep_inj (parent k1 k2 t1 t2 : String)
    (hk1 : keyOk k1 = true) (hk2 : keyOk k2 = true)
    (h : joinKey parent k1 ++ "." ++ t1 = joinKey parent k2 ++ "." ++ t2) :
    k1 = k2 ∧ t1 = t2 := by
  obtain ⟨_, hd1⟩ := keyOk_iff k1 hk1
  obtain ⟨_, hd2⟩ := keyOk_iff k2 hk2
  have hd := congrArg String.data h
  rw [dotted_data, dotted_data] at hd
  by_cases hp : parent = ""
  · unfold joinKey at hd
    rw [if_pos hp, if_pos hp] at hd
    obtain ⟨e1, e2⟩ := chars_cancel _ _ _ _ hd1 hd2 hd
    exact ⟨String.ext e1, String.ext e2⟩
  · rw [joinKey_data parent k1 hp, joinKey_data parent k2 hp] at hd
    rw [List.append_assoc, List.append_assoc] at hd
    have h2 := List.append_cancel_left hd
    simp only [List.cons_append, List.cons.injEq, true_and] at h2
    obtain ⟨e1, e2⟩ := chars_cancel _ _ _ _ hd1 hd2 h2
    exact ⟨String.ext e1, String.ext e2⟩

/-- Unfolding the dotted join of a two-or-more segment path. -/
theorem joinDotted_cons_cons (p0 q : String) (qs : List String) :
    joinDotted (p0 :: q :: qs) = p0 ++ "." ++ joinDotted (q :: qs) := rfl

/-- Splitting a joined key under a non-empty-key join. -/
theorem joinKey_split (parent k x : String) (hk : keyOk k = true) :
    joinKey (joinKey parent k) x = joinKey parent k ++ "." ++ x :=
  joinKey_of_ne_empty _ x (joinKey_ne_empty parent k hk)

/-- Associativity of the dotted join along a path. -/
theorem joinKey_assoc (parent p0 : String) (q : String) (qs : List String)
    (hk : keyOk p0 = true) :
    joinKey parent (joinDotted (p0 :: q :: qs))
      = joinKey (joinKey parent p0) (joinDotted (q :: qs)) := by
  rw [joinDotted_cons_cons, joinKey_split parent p0 _ hk]
  apply String.ext
  by_cases hp : parent = ""
  · obtain ⟨hne, _⟩ := keyOk_iff p0 hk
    rw [show joinKey parent (p0 ++ "." ++ joinDotted (q :: qs))
        = p0 ++ "." ++ joinDotted (q :: qs) from by simp [joinKey, hp]]
    rw [show joinKey parent p0 = p0 from by simp [joinKey, hp]]
  · rw [joinKey_data parent _ hp]
    rw [show (joinKey parent p0 ++ "." ++ joinDotted (q :: qs)).data
        = (joinKey parent p0).data ++ '.' :: (joinDotted (q :: qs)).data from
      dotted_data _ _]
    rw [joinKey_data parent p0 hp, dotted_data]
    simp [List.append_assoc]

end Productivity

namespace Productivity

/-! ### Structural lemmas on `flattenEntries` (C1) -/

/-- Unfolding well-formedness at a cons cell. -/
theorem wfEntries_cons {α : Type} (k : String) (v : ConfigVal α)
    (rest : List (String × ConfigVal α)) (h : wfEntries ((k, v) :: rest) = true) :
    keyOk k = true ∧ rest.any (fun e => e.1 = k) = false
      ∧ wfConfig v = true ∧ wfEntries rest = true := by
  rw [show wfEntries ((k, v) :: rest)
      = (keyOk k && !(rest.any (fun e => e.1 = k)) && wfConfig v && wfEntries rest)
    from by simp [wfEntries]] at h
  simp only [Bool.and_eq_true, Bool.not_eq_true'] at h
  exact ⟨h.1.1.1, h.1.1.2, h.1.2, h.2⟩

/-- A member of a well-formed level has a usable key and is itself
well-formed. -/
theorem wf_entry_mem {α : Type} :
    ∀ (es : List (String × ConfigVal α)) (k : String) (w : ConfigVal α),
      wfEntries es = true → (k, w) ∈ es → keyOk k = true ∧ wfConfig w = true
  | (k0, v0) :: rest, k, w, hwf, hmem => by
    obtain ⟨h1, _, h3, h4⟩ := wfEntries_cons k0 v0 rest hwf
    rcases List.mem_cons.mp hmem with heq | hmem
    · cases heq
      exact ⟨h1, h3⟩
    · exact wf_entry_mem rest k w h4 hmem

/-- Well-formedness of a non-empty nested map value. -/
theorem wfConfig_map {α : Type} (es : List (String × ConfigVal α))
    (h : wfConfig (ConfigVal.map es) = true) : wfEntries es = true := by
  rw [show wfConfig (ConfigVal.map es) = wfEntries es from by simp [wfConfig]] at h
  exact h

/-- Shape of every flattened key: it is the join of the parent with a
key of the level, possibly extended by a dotted tail. -/
theorem flatten_key_shape {α : Type} :
    ∀ (es : List (String × ConfigVal α)) (parent : String)
      (e : String × ConfigVal α),
      wfEntries es = true → e ∈ flattenEntries es parent →
      ∃ k, k ∈ es.map (·.1)
        ∧ (e.1 = joinKey parent k ∨ ∃ t, e.1 = joinKey parent k ++ "." ++ t)
  | [], parent, e, _, hmem => by simp [flattenEntries] at hmem
  | (k, ConfigVal.leaf x) :: rest, parent, e, hwf, hmem => by
    obtain ⟨hk, hnd, hv, hrest⟩ := wfEntries_cons k _ rest hwf
    rw [show flattenEntries ((k, ConfigVal.leaf x) :: rest) parent
        = [(joinKey parent k, ConfigVal.leaf x)] ++ flattenEntries rest parent
      from by simp [flattenEntries]] at hmem
    rcases List.mem_append.mp hmem with hmem | hmem
    · simp only [List.mem_singleton] at hmem
      exact ⟨k, by simp, Or.inl (by rw [hmem])⟩
    · obtain ⟨k2, hk2, hsh⟩ := flatten_key_shape rest parent e hrest hmem
      exact ⟨k2, by simp [hk2], hsh⟩
  | (k, ConfigVal.map []) :: rest, parent, e, hwf, hmem => by
    obtain ⟨hk, hnd, hv, hrest⟩ := wfEntries_cons k _ rest hwf
    rw [show flattenEntries ((k, ConfigVal.map []) :: rest) parent
        = [(joinKey parent k, ConfigVal.map [])] ++ flattenEntries rest parent
      from by simp [flattenEntries]] at hmem
    rcases List.mem_append.mp hmem with hmem | hmem
    · simp only [List.mem_singleton] at hmem
      exact ⟨k, by simp, Or.inl (by rw [hmem])⟩
    · obtain ⟨k2, hk2, hsh⟩ := flatten_key_shape rest parent e hrest hmem
      exact ⟨k2, by simp [hk2], hsh⟩
  | (k, ConfigVal.map (e0 :: es0)) :: rest, parent, e, hwf, hmem => by
    obtain ⟨hk, hnd, hv, hrest⟩ := wfEntries_cons k _ rest hwf
    rw [show flattenEntries ((k, ConfigVal.map (e0 :: es0)) :: rest) parent
        = flattenEntries (e0 :: es0) (joinKey parent k)
          ++ flattenEntries rest parent
      from by simp [flattenEntries]] at hmem
    rcases List.mem_append.mp hmem with hmem | hmem
    · obtain ⟨k2, _, hsh⟩ :=
        flatten_key_shape (e0 :: es0) (joinKey parent k) e (wfConfig_map _ hv) hmem
      refine ⟨k, by simp, Or.inr ?_⟩
      rcases hsh with hsh | ⟨t, hsh⟩
      · exact ⟨k2, by rw [hsh, joinKey_split parent k k2 hk]⟩
      · refine ⟨k2 ++ "." ++ t, ?_⟩
        rw [hsh, joinKey_split parent k k2 hk]
        simp [String.append_assoc]
    · obtain ⟨k2, hk2, hsh⟩ := flatten_key_shape rest parent e hrest hmem
      exact ⟨k2, by simp [hk2], hsh⟩
termination_by es parent e hwf hmem => sizeOf es
decreasing_by
  all_goals simp_wf
  all_goals omega

/-- A leaf-like entry of a level appears in the flattening under its
joined key. -/
theorem flatten_mem_leaf {α : Type} :
    ∀ (es : List (String × ConfigVal α)) (parent k : String) (v : ConfigVal α),
      (k, v) ∈ es → isLeafLike v = true →
      (joinKey parent k, v) ∈ flattenEntries es parent
  | (k0, ConfigVal.leaf x) :: rest, parent, k, v, hmem, hleaf => by
    rw [show flattenEntries ((k0, ConfigVal.leaf x) :: rest) parent
        = [(joinKey parent k0, ConfigVal.leaf x)] ++ flattenEntries rest parent
      from by simp [flattenEntries]]
    rcases List.mem_cons.mp hmem with heq | hmem
    · have hk0 : k = k0 := congrArg Prod.fst heq
      have hv : v = ConfigVal.leaf x := congrArg Prod.snd heq
      subst hk0
      subst hv
      exact List.mem_append_left _ (by simp)
    · exact List.mem_append_right _ (flatten_mem_leaf rest parent k v hmem hleaf)
  | (k0, ConfigVal.map []) :: rest, parent, k, v, hmem, hleaf => by
    rw [show flattenEntries ((k0, ConfigVal.map []) :: rest) parent
        = [(joinKey parent k0, ConfigVal.map [])] ++ flattenEntries rest parent
      from by simp [flattenEntries]]
    rcases List.mem_cons.mp hmem with heq | hmem
    · have hk0 : k = k0 := congrArg Prod.fst heq
      have hv : v = ConfigVal.map [] := congrArg Prod.snd heq
      subst hk0
      subst hv
      exact List.mem_append_left _ (by simp)
    · exact List.mem_append_right _ (flatten_mem_leaf rest parent k v hmem hleaf)
  | (k0, ConfigVal.map (e0 :: es0)) :: rest, parent, k, v, hmem, hleaf => by
    rw [show flattenEntries ((k0, ConfigVal.map (e0 :: es0)) :: rest) parent
        = flattenEntries (e0 :: es0) (joinKey parent k0)
          ++ flattenEntries rest parent
      from by simp [flattenEntries]]
    rcases List.mem_cons.mp hmem with heq | hmem
    · have hv : v = ConfigVal.map (e0 :: es0) := congrArg Prod.snd heq
      rw [hv] at hleaf
      simp [isLeafLike] at hleaf
    · exact List.mem_append_right _ (flatten_mem_leaf rest parent k v hmem hleaf)

/-- The flattening of a non-empty nested map value is contained in the
flattening of its level. -/
theorem flatten_sub_subset {α : Type} :
    ∀ (es : List (String × ConfigVal α)) (parent k : String)
      (e0 : String × ConfigVal α) (es0 : List (String × ConfigVal α)),
      (k, ConfigVal.map (e0 :: es0)) ∈ es →
      ∀ x ∈ flattenEntries (e0 :: es0) (joinKey parent k),
        x ∈ flattenEntries es parent
  | (k0, ConfigVal.leaf y) :: rest, parent, k, e0, es0, hmem, x, hx => by
    rw [show flattenEntries ((k0, ConfigVal.leaf y) :: rest) parent
        = [(joinKey parent k0, ConfigVal.leaf y)] ++ flattenEntries rest parent
      from by simp [flattenEntries]]
    rcases List.mem_cons.mp hmem with heq | hmem
    · have hv : ConfigVal.map (e0 :: es0) = ConfigVal.leaf y := congrArg Prod.snd heq
      simp at hv
    · exact List.mem_append_right _
        (flatten_sub_subset rest parent k e0 es0 hmem x hx)
  | (k0, ConfigVal.map []) :: rest, parent, k, e0, es0, hmem, x, hx => by
    rw [show flattenEntries ((k0, ConfigVal.map []) :: rest) parent
        = [(joinKey parent k0, ConfigVal.map [])] ++ flattenEntries rest parent
      from by simp [flattenEntries]]
    rcases List.mem_cons.mp hmem with heq | hmem
    · have hv : ConfigVal.map (e0 :: es0) = ConfigVal.map [] := congrArg Prod.snd heq
      simp at hv
    · exact List.mem_append_right _
        (flatten_sub_subset rest parent k e0 es0 hmem x hx)
  | (k0, ConfigVal.map (f0 :: fs0)) :: rest, parent, k, e0, es0, hmem, x, hx => by
    rw [show flattenEntries ((k0, ConfigVal.map (f0 :: fs0)) :: rest) parent
        = flattenEntries (f0 :: fs0) (joinKey parent k0)
          ++ flattenEntries rest parent
      from by simp [flattenEntries]]
    rcases List.mem_cons.mp hmem with heq | hmem
    · have hk0 : k = k0 := congrArg Prod.fst heq
      have hv : ConfigVal.map (e0 :: es0) = ConfigVal.map (f0 :: fs0) :=
        congrArg Prod.snd heq
      have hlist : e0 :: es0 = f0 :: fs0 := by
        injection hv
      subst hk0
      rw [← hlist]
      exact List.mem_append_left _ hx
    · exact List.mem_append_right _
        (flatten_sub_subset rest parent k e0 es0 hmem x hx)

/-- Last-binding-wins dictionary lookup of a key all of whose bindings
agree. -/
theorem dictLookup_eq_of {α : Type} (l : List (String × ConfigVal α))
    (key : String) (v : ConfigVal α) (hmem : (key, v) ∈ l)
    (huniq : ∀ e ∈ l, e.1 = key → e.2 = v) :
    dictLookup l key = some v := by
  unfold dictLookup
  have hsome : (l.reverse.find? (fun e => e.1 = key)).isSome := by
    rw [List.find?_isSome]
    exact ⟨(key, v), by simp [hmem], by simp⟩
  obtain ⟨e, he⟩ := Option.isSome_iff_exists.mp hsome
  rw [he]
  have h1 : e.1 = key := by simpa using List.find?_some he
  have h2 : e ∈ l := by
    have := List.mem_of_find?_eq_some he
    simpa using this
  rw [Option.map_some']
  rw [huniq e h2 h1]

end Productivity

namespace Productivity

/-! ### Path lookup lemmas (C1) -/

/-- Path lookup into an empty level fails. -/
theorem getPath_nil_map {α : Type} (p0 : String) (ps : List String) :
    getPath (ConfigVal.map ([] : List (String × ConfigVal α))) (p0 :: ps) = none := rfl

/-- Path lookup hitting the head entry. -/
theorem getPath_cons_eq {α : Type} (k0 : String) (v0 : ConfigVal α)
    (rest : List (String × ConfigVal α)) (ps : List String) :
    getPath (ConfigVal.map ((k0, v0) :: rest)) (k0 :: ps) = getPath v0 ps := by
  show (match (((k0, v0) :: rest).find? (fun e => e.1 = k0)).map (·.2) with
      | some w => getPath w ps
      | none => none) = getPath v0 ps
  rw [List.find?_cons_of_pos _ (by simp)]
  rfl

/-- Path lookup skipping a non-matching head entry. -/
theorem getPath_cons_ne {α : Type} (k0 : String) (v0 : ConfigVal α)
    (rest : List (String × ConfigVal α)) (p0 : String) (ps : List String)
    (hne : k0 ≠ p0) :
    getPath (ConfigVal.map ((k0, v0) :: rest)) (p0 :: ps)
      = getPath (ConfigVal.map rest) (p0 :: ps) := by
  show (match (((k0, v0) :: rest).find? (fun e => e.1 = p0)).map (·.2) with
      | some w => getPath w ps
      | none => none)
    = getPath (ConfigVal.map rest) (p0 :: ps)
  rw [List.find?_cons_of_neg _ (by simp [hne])]
  rfl

/-- Successful path lookup exposes the matched entry. -/
theorem getPath_cons_elim {α : Type} (es : List (String × ConfigVal α))
    (p0 : String) (ps : List String) (v : ConfigVal α)
    (h : getPath (ConfigVal.map es) (p0 :: ps) = some v) :
    ∃ en, es.find? (fun e => e.1 = p0) = some en ∧ en.1 = p0
      ∧ getPath en.2 ps = some v := by
  rw [show getPath (ConfigVal.map es) (p0 :: ps)
      = (match (es.find? (fun e => e.1 = p0)).map (·.2) with
        | some w => getPath w ps
        | none => none) from rfl] at h
  cases hf : es.find? (fun e => e.1 = p0) with
  | none =>
    rw [hf] at h
    simp at h
  | some en =>
    rw [hf] at h
    exact ⟨en, rfl, by simpa using List.find?_some hf, by simpa using h⟩

/-- The head key of a successful path is a usable key. -/
theorem getPath_head_key {α : Type} (es : List (String × ConfigVal α))
    (p0 : String) (ps : List String) (v : ConfigVal α)
    (hwf : wfEntries es = true)
    (h : getPath (ConfigVal.map es) (p0 :: ps) = some v) : keyOk p0 = true := by
  obtain ⟨en, hf, hk, _⟩ := getPath_cons_elim es p0 ps v h
  have hmem : (p0, en.2) ∈ es := by
    have := List.mem_of_find?_eq_some hf
    rw [← hk]
    simpa using this
  exact (wf_entry_mem es p0 en.2 hwf hmem).1

/-- A key of a level with no duplicate of `k0` differs from `k0`. -/
theorem key_ne_of_no_dup {α : Type} (rest : List (String × ConfigVal α))
    (k0 k2 : String) (hnd : rest.any (fun e => e.1 = k0) = false)
    (hk2 : k2 ∈ rest.map (·.1)) : k2 ≠ k0 := by
  intro heq
  subst heq
  obtain ⟨c, hc, hc1⟩ := List.mem_map.mp hk2
  have : rest.any (fun e => e.1 = k2) = true :=
    List.any_eq_true.mpr ⟨c, hc, by simp [hc1]⟩
  rw [this] at hnd
  exact Bool.true_eq_false.mp hnd

/-- Completeness of the flattening: the value at a path of usable keys
appears in the flattening under the dotted key. -/
theorem flatten_complete {α : Type} :
    ∀ (p : List String) (es : List (String × ConfigVal α)) (parent : String)
      (v : ConfigVal α),
      wfEntries es = true → getPath (ConfigVal.map es) p = some v →
      isLeafLike v = true → p ≠ [] →
      (joinKey parent (joinDotted p), v) ∈ flattenEntries es parent
  | [], _, _, _, _, _, _, hp => absurd rfl hp
  | [p0], es, parent, v, hwf, hpath, hleaf, _ => by
    obtain ⟨en, hf, hk, hrest⟩ := getPath_cons_elim es p0 [] v hpath
    have hv : en.2 = v := by
      simpa [getPath] using hrest
    have hmem : (p0, v) ∈ es := by
      have := List.mem_of_find?_eq_some hf
      rw [← hk, ← hv]
      simpa using this
    exact flatten_mem_leaf es parent p0 v hmem hleaf
  | p0 :: q :: qs, es, parent, v, hwf, hpath, hleaf, _ => by
    obtain ⟨en, hf, hk, hrest⟩ := getPath_cons_elim es p0 (q :: qs) v hpath
    have hmem : (p0, en.2) ∈ es := by
      have := List.mem_of_find?_eq_some hf
      rw [← hk]
      simpa using this
    obtain ⟨hkeyok, hwfen⟩ := wf_entry_mem es p0 en.2 hwf hmem
    rcases hen : en.2 with x | (_ | ⟨e0, es0⟩)
    · rw [hen] at hrest
      simp [getPath] at hrest
    · rw [hen] at hrest
      rw [getPath_nil_map q qs] at hrest
      exact absurd hrest (by simp)
    · rw [hen] at hrest hwfen
      have hwfsub : wfEntries (e0 :: es0) = true := wfConfig_map _ hwfen
      have hrec := flatten_complete (q :: qs) (e0 :: es0) (joinKey parent p0) v
        hwfsub hrest hleaf (by simp)
      rw [joinKey_assoc parent p0 q qs hkeyok]
      exact flatten_sub_subset es parent p0 e0 es0 (hen ▸ hmem) _ hrec

end Productivity

namespace Productivity

/-- A key occurring in a well-formed level is usable. -/
theorem wf_key_of_mem_keys {α : Type} (es : List (String × ConfigVal α))
    (k2 : String) (hwf : wfEntries es = true) (hk2 : k2 ∈ es.map (·.1)) :
    keyOk k2 = true := by
  obtain ⟨c, hc, hc1⟩ := List.mem_map.mp hk2
  have : (c.1, c.2) ∈ es := by simpa using hc
  exact hc1 ▸ (wf_entry_mem es c.1 c.2 hwf this).1

/-- Every key produced by flattening a non-empty nested map value is a
dotted extension of the value's joined key. -/
theorem chunk_key_deep {α : Type} (parent k0 : String) (hk0 : keyOk k0 = true)
    (sub : List (String × ConfigVal α)) (hwfsub : wfEntries sub = true)
    (e : String × ConfigVal α) (hmem : e ∈ flattenEntries sub (joinKey parent k0)) :
    ∃ s, e.1 = joinKey parent k0 ++ "." ++ s := by
  obtain ⟨k3, _, hsh⟩ := flatten_key_shape sub (joinKey parent k0) e hwfsub hmem
  rcases hsh with hsh | ⟨t, hsh⟩
  · exact ⟨k3, by rw [hsh, joinKey_split parent k0 k3 hk0]⟩
  · refine ⟨k3 ++ "." ++ t, ?_⟩
    rw [hsh, joinKey_split parent k0 k3 hk0]
    simp [String.append_assoc]

/-- Uniqueness of the flattened binding: under well-formed keys, any
flattened entry carrying the dotted key of a path holds that path's
value. -/
theorem flatten_uniq {α : Type} :
    ∀ (p : List String) (es : List (String × ConfigVal α)) (parent : String)
      (v : ConfigVal α) (e : String × ConfigVal α),
      wfEntries es = true → getPath (ConfigVal.map es) p = some v →
      isLeafLike v = true → p ≠ [] → e ∈ flattenEntries es parent →
      e.1 = joinKey parent (joinDotted p) → e.2 = v
  | [], _, _, _, _, _, _, _, hp, _, _ => absurd rfl hp
  | p0 :: ps, [], _, _, _, _, hpath, _, _, _, _ => by
    rw [getPath_nil_map p0 ps] at hpath
    exact absurd hpath (by simp)
  | [p0], (k0, ConfigVal.leaf x) :: rest, parent, v, e, hwf, hpath, hleaf, _,
      hmem, hkey => by
    obtain ⟨hk0ok, hnd, hwv, hwfrest⟩ := wfEntries_cons k0 _ rest hwf
    have hp0ok : keyOk p0 = true := getPath_head_key _ p0 [] v hwf hpath
    have hkey2 : e.1 = joinKey parent p0 := hkey
    rw [show flattenEntries ((k0, ConfigVal.leaf x) :: rest) parent
        = [(joinKey parent k0, ConfigVal.leaf x)] ++ flattenEntries rest parent
      from by simp [flattenEntries]] at hmem
    by_cases hk0 : k0 = p0
    · subst hk0
      rw [getPath_cons_eq] at hpath
      have hv : ConfigVal.leaf x = v := by simpa [getPath] using hpath
      rcases List.mem_append.mp hmem with hmem | hmem
      · simp only [List.mem_singleton] at hmem
        rw [hmem]
        exact hv
      · obtain ⟨k2, hk2, hsh⟩ := flatten_key_shape rest parent e hwfrest hmem
        have hk2ne : k2 ≠ k0 := key_ne_of_no_dup rest k0 k2 hnd hk2
        rcases hsh with hsh | ⟨t, hsh⟩
        · exact absurd (joinKey_inj parent k2 k0 (hsh.symm.trans hkey2)) hk2ne
        · exact absurd (hsh.symm.trans hkey2).symm
            (joinKey_ne_deep parent k0 k2 t hk0ok)
    · rw [getPath_cons_ne k0 _ rest p0 [] hk0] at hpath
      rcases List.mem_append.mp hmem with hmem | hmem
      · simp only [List.mem_singleton] at hmem
        have hek : e.1 = joinKey parent k0 := by rw [hmem]
        exact absurd (joinKey_inj parent k0 p0 (hek.symm.trans hkey2)) hk0
      · exact flatten_uniq [p0] rest parent v e hwfrest hpath hleaf (by simp)
          hmem hkey
  | [p0], (k0, ConfigVal.map []) :: rest, parent, v, e, hwf, hpath, hleaf, _,
      hmem, hkey => by
    obtain ⟨hk0ok, hnd, hwv, hwfrest⟩ := wfEntries_cons k0 _ rest hwf
    have hp0ok : keyOk p0 = true := getPath_head_key _ p0 [] v hwf hpath
    have hkey2 : e.1 = joinKey parent p0 := hkey
    rw [show flattenEntries ((k0, ConfigVal.map []) :: rest) parent
        = [(joinKey parent k0, ConfigVal.map [])] ++ flattenEntries rest parent
      from by simp [flattenEntries]] at hmem
    by_cases hk0 : k0 = p0
    · subst hk0
      rw [getPath_cons_eq] at hpath
      have hv : ConfigVal.map [] = v := by simpa [getPath] using hpath
      rcases List.mem_append.mp hmem with hmem | hmem
      · simp only [List.mem_singleton] at hmem
        rw [hmem]
        exact hv
      · obtain ⟨k2, hk2, hsh⟩ := flatten_key_shape rest parent e hwfrest hmem
        have hk2ne : k2 ≠ k0 := key_ne_of_no_dup rest k0 k2 hnd hk2
        rcases hsh with hsh | ⟨t, hsh⟩
        · exact absurd (joinKey_inj parent k2 k0 (hsh.symm.trans hkey2)) hk2ne
        · exact absurd (hsh.symm.trans hkey2).symm
            (joinKey_ne_deep parent k0 k2 t hk0ok)
    · rw [getPath_cons_ne k0 _ rest p0 [] hk0] at hpath
      rcases List.mem_append.mp hmem with hmem | hmem
      · simp only [List.mem_singleton] at hmem
        have hek : e.1 = joinKey parent k0 := by rw [hmem]
        exact absurd (joinKey_inj parent k0 p0 (hek.symm.trans hkey2)) hk0
      · exact flatten_uniq [p0] rest parent v e hwfrest hpath hleaf (by simp)
          hmem hkey
  | [p0], (k0, ConfigVal.map (e0 :: es0)) :: rest, parent, v, e, hwf, hpath,
      hleaf, _, hmem, hkey => by
    obtain ⟨hk0ok, hnd, hwv, hwfrest⟩ := wfEntries_cons k0 _ rest hwf
    have hp0ok : keyOk p0 = true := getPath_head_key _ p0 [] v hwf hpath
    have hkey2 : e.1 = joinKey parent p0 := hkey
    rw [show flattenEntries ((k0, ConfigVal.map (e0 :: es0)) :: rest) parent
        = flattenEntries (e0 :: es0) (joinKey parent k0)
          ++ flattenEntries rest parent
      from by simp [flattenEntries]] at hmem
    by_cases hk0 : k0 = p0
    · subst hk0
      rw [getPath_cons_eq] at hpath
      have hv : ConfigVal.map (e0 :: es0) = v := by simpa [getPath] using hpath
      rw [← hv] at hleaf
      simp [isLeafLike] at hleaf
    · rcases List.mem_append.mp hmem with hmem | hmem
      · obtain ⟨s, hs⟩ := chunk_key_deep parent k0 hk0ok (e0 :: es0)
          (wfConfig_map _ hwv) e hmem
        exact absurd (hs.symm.trans hkey2).symm
          (joinKey_ne_deep parent p0 k0 s hp0ok)
      · rw [getPath_cons_ne k0 _ rest p0 [] hk0] at hpath
        exact flatten_uniq [p0] rest parent v e hwfrest hpath hleaf (by simp)
          hmem hkey
  | p0 :: q :: qs, (k0, ConfigVal.leaf x) :: rest, parent, v, e, hwf, hpath,
      hleaf, _, hmem, hkey => by
    obtain ⟨hk0ok, hnd, hwv, hwfrest⟩ := wfEntries_cons k0 _ rest hwf
    have hp0ok : keyOk p0 = true := getPath_head_key _ p0 (q :: qs) v hwf hpath
    have hkey2 : e.1 = joinKey parent p0 ++ "." ++ joinDotted (q :: qs) := by
      rw [hkey, joinKey_assoc parent p0 q qs hp0ok,
        joinKey_split parent p0 _ hp0ok]
    rw [show flattenEntries ((k0, ConfigVal.leaf x) :: rest) parent
        = [(joinKey parent k0, ConfigVal.leaf x)] ++ flattenEntries rest parent
      from by simp [flattenEntries]] at hmem
    by_cases hk0 : k0 = p0
    · subst hk0
      rw [getPath_cons_eq] at hpath
      rw [show getPath (ConfigVal.leaf x) (q :: qs) = none from rfl] at hpath
      exact absurd hpath (by simp)
    · rcases List.mem_append.mp hmem with hmem | hmem
      · simp only [List.mem_singleton] at hmem
        have hek : e.1 = joinKey parent k0 := by rw [hmem]
        exact absurd (hek.symm.trans hkey2)
          (joinKey_ne_deep parent k0 p0 (joinDotted (q :: qs)) hk0ok)
      · rw [getPath_cons_ne k0 _ rest p0 (q :: qs) hk0] at hpath
        exact flatten_uniq (p0 :: q :: qs) rest parent v e hwfrest hpath hleaf
          (by simp) hmem hkey
  | p0 :: q :: qs, (k0, ConfigVal.map []) :: rest, parent, v, e, hwf, hpath,
      hleaf, _, hmem, hkey => by
    obtain ⟨hk0ok, hnd, hwv, hwfrest⟩ := wfEntries_cons k0 _ rest hwf
    have hp0ok : keyOk p0 = true := getPath_head_key _ p0 (q :: qs) v hwf hpath
    have hkey2 : e.1 = joinKey parent p0 ++ "." ++ joinDotted (q :: qs) := by
      rw [hkey, joinKey_assoc parent p0 q qs hp0ok,
        joinKey_split parent p0 _ hp0ok]
    rw [show flattenEntries ((k0, ConfigVal.map []) :: rest) parent
        = [(joinKey parent k0, ConfigVal.map [])] ++ flattenEntries rest parent
      from by simp [flattenEntries]] at hmem
    by_cases hk0 : k0 = p0
    · subst hk0
      rw [getPath_cons_eq, getPath_nil_map q qs] at hpath
      exact absurd hpath (by simp)
    · rcases List.mem_append.mp hmem with hmem | hmem
      · simp only [List.mem_singleton] at hmem
        have hek : e.1 = joinKey parent k0 := by rw [hmem]
        exact absurd (hek.symm.trans hkey2)
          (joinKey_ne_deep parent k0 p0 (joinDotted (q :: qs)) hk0ok)
      · rw [getPath_cons_ne k0 _ rest p0 (q :: qs) hk0] at hpath
        exact flatten_uniq (p0 :: q :: qs) rest parent v e hwfrest hpath hleaf
          (by simp) hmem hkey
  | p0 :: q :: qs, (k0, ConfigVal.map (e0 :: es0)) :: rest, parent, v, e, hwf,
      hpath, hleaf, _, hmem, hkey => by
    obtain ⟨hk0ok, hnd, hwv, hwfrest⟩ := wfEntries_cons k0 _ rest hwf
    have hp0ok : keyOk p0 = true := getPath_head_key _ p0 (q :: qs) v hwf hpath
    have hkey2 : e.1 = joinKey parent p0 ++ "." ++ joinDotted (q :: qs) := by
      rw [hkey, joinKey_assoc parent p0 q qs hp0ok,
        joinKey_split parent p0 _ hp0ok]
    rw [show flattenEntries ((k0, ConfigVal.map (e0 :: es0)) :: rest) parent
        = flattenEntries (e0 :: es0) (joinKey parent k0)
          ++ flattenEntries rest parent
      from by simp [flattenEntries]] at hmem
    by_cases hk0 : k0 = p0
    · subst hk0
      rw [getPath_cons_eq] at hpath
      rcases List.mem_append.mp hmem with hmem | hmem
      · refine flatten_uniq (q :: qs) (e0 :: es0) (joinKey parent k0) v e
          (wfConfig_map _ hwv) hpath hleaf (by simp) hmem ?_
        rw [hkey, joinKey_assoc parent k0 q qs hk0ok]
      · obtain ⟨k2, hk2, hsh⟩ := flatten_key_shape rest parent e hwfrest hmem
        have hk2ne : k2 ≠ k0 := key_ne_of_no_dup rest k0 k2 hnd hk2
        have hk2ok : keyOk k2 = true := wf_key_of_mem_keys rest k2 hwfrest hk2
        rcases hsh with hsh | ⟨t, hsh⟩
        · exact absurd (hsh.symm.trans hkey2)
            (joinKey_ne_deep parent k2 k0 (joinDotted (q :: qs)) hk2ok)
        · exact absurd (joinKey_deep_inj parent k2 k0 t (joinDotted (q :: qs))
            hk2ok hk0ok (hsh.symm.trans hkey2)).1 hk2ne
    · rcases List.mem_append.mp hmem with hmem | hmem
      · obtain ⟨s, hs⟩ := chunk_key_deep parent k0 hk0ok (e0 :: es0)
          (wfConfig_map _ hwv) e hmem
        exact absurd (joinKey_deep_inj parent k0 p0 s (joinDotted (q :: qs))
          hk0ok hp0ok (hs.symm.trans hkey2)).1 hk0
      · rw [getPath_cons_ne k0 _ rest p0 (q :: qs) hk0] at hpath
        exact flatten_uniq (p0 :: q :: qs) rest parent v e hwfrest hpath hleaf
          (by simp) hmem hkey
termination_by p es parent v e h1 h2 h3 h4 h5 h6 => (p.length, sizeOf es)

end Productivity

namespace Productivity

/-- Claim C1 (amended): for a nested configuration map whose keys are,
at every level, non-empty, free of the `.` separator and pairwise
distinct, flattening and then looking up the dotted key of a path
yields the original value at that path, for arbitrary nesting depth;
non-map leaves — and empty maps — are the values the flattening emits
without recursing into them (`isLeafLike`). -/
theorem claim_C1 {α : Type} (es : List (String × ConfigVal α)) (p : List String)
    (v : ConfigVal α) (hwf : wfEntries es = true)
    (hpath : getPath (ConfigVal.map es) p = some v)
    (hleaf : isLeafLike v = true) (hp : p ≠ []) :
    dictLookup (flatten_config es) (joinDotted p) = some v := by
  have h1 := flatten_complete p es "" v hwf hpath hleaf hp
  have hjk : joinKey "" (joinDotted p) = joinDotted p := by simp [joinKey]
  rw [hjk] at h1
  refine dictLookup_eq_of _ _ _ h1 ?_
  intro e he hek
  exact flatten_uniq p es "" v e hwf hpath hleaf hp he (by rw [hek, hjk])

/-- Witness for C1: a two-level configuration with usable keys, looked
up at the dotted path `a.b`. -/
theorem claim_C1_witness :
    wfEntries [("a", ConfigVal.map [("b", ConfigVal.leaf (1 : Int))]),
        ("c", ConfigVal.leaf 3)] = true
      ∧ getPath (ConfigVal.map [("a", ConfigVal.map [("b", ConfigVal.leaf (1 : Int))]),
          ("c", ConfigVal.leaf 3)]) ["a", "b"] = some (ConfigVal.leaf 1)
      ∧ dictLookup (flatten_config [("a", ConfigVal.map [("b", ConfigVal.leaf (1 : Int))]),
          ("c", ConfigVal.leaf 3)]) (joinDotted ["a", "b"])
        = some (ConfigVal.leaf 1) := by
  have hwf : wfEntries [("a", ConfigVal.map [("b", ConfigVal.leaf (1 : Int))]),
      ("c", ConfigVal.leaf 3)] = true := by
    simp [wfEntries, wfConfig, keyOk]
  exact ⟨hwf, rfl, claim_C1 _ ["a", "b"] _ hwf rfl rfl (by simp)⟩

/-- Counterexample for C1 as stated: with a key that itself contains
the separator, the flattened keys collide and the lookup returns the
other binding.  The nested map `a ↦ (b ↦ 1), "a.b" ↦ 2` has value `1`
at the path `a → b`, but looking up the flattened key `a.b` yields
`2`. -/
theorem claim_C1_counterexample :
    getPath (ConfigVal.map [("a", ConfigVal.map [("b", ConfigVal.leaf (1 : Int))]),
        ("a.b", ConfigVal.leaf 2)]) ["a", "b"] = some (ConfigVal.leaf 1)
      ∧ isLeafLike (ConfigVal.leaf (1 : Int)) = true
      ∧ joinDotted ["a", "b"] = "a.b"
      ∧ dictLookup (flatten_config [("a", ConfigVal.map [("b", ConfigVal.leaf (1 : Int))]),
          ("a.b", ConfigVal.leaf 2)]) (joinDotted ["a", "b"])
        = some (ConfigVal.leaf 2)
      ∧ ¬ dictLookup (flatten_config [("a", ConfigVal.map [("b", ConfigVal.leaf (1 : Int))]),
          ("a.b", ConfigVal.leaf 2)]) (joinDotted ["a", "b"])
        = some (ConfigVal.leaf 1) := by
  have hflat : flatten_config [("a", ConfigVal.map [("b", ConfigVal.leaf (1 : Int))]),
      ("a.b", ConfigVal.leaf 2)]
      = [("a.b", ConfigVal.leaf 1), ("a.b", ConfigVal.leaf 2)] := by
    simp [flatten_config, flattenEntries, joinKey]
  refine ⟨rfl, rfl, rfl, ?_, ?_⟩
  · rw [hflat]
    rfl
  · rw [hflat, show joinDotted ["a", "b"] = "a.b" from rfl]
    rw [show dictLookup [("a.b", ConfigVal.leaf (1 : Int)), ("a.b", ConfigVal.leaf 2)] "a.b"
        = some (ConfigVal.leaf 2) from rfl]
    simp

end Productivity
